import Mathlib

/-!
Per-core physical page allocator (`kernel/kalloc.c`)

A shallow embedding of `kinit`/`freerange`/`kfree`/`kalloc` from `kernel/kalloc.c`.

* Physical memory is a byte store `Nat → Nat` indexed by address.
* `kmems[i].freelist` is the head pointer of core `i` (`0` is the null pointer); the
  list itself lives in memory: the first 8 bytes of a free frame hold `r->next`.
* `cpuid()` is an argument `id` of every operation (the core that executes the call).
* `kfree`, `kalloc` and `freerange` are modelled as one sequential step each: a call
  acquires and releases the locks it uses, so on locks that are not held the result
  does not depend on them and the state of these operations has no locks.
* The locks appear where they matter: in `kinit` (which initialises them) and in
  `coreStep`, the step-by-step version of `kalloc` for interleaved cores;
  `coreStep_solo_is_kalloc` relates the latter to `kalloc`.
* `NCPU`, `PHYSTOP` and the linker symbol `end` come from headers outside
  `kalloc.c`; they are the fields of `Config`.
-/

namespace Kalloc

/-! ## Constants and machine-level helpers -/

/-- Bytes per page ("Allocates whole 4096-byte pages", `kalloc.c` line 3). -/
def PGSIZE : Nat := 4096

/-- Number of values of a 64-bit machine word (`uint64`, pointers). -/
def WORD : Nat := 2 ^ 64

/-- Build-time constants used by `kalloc.c` but declared elsewhere:
`NCPU` (`param.h`), `PHYSTOP` (`memlayout.h`) and `kend`, the address of the linker
symbol `end` ("first address after kernel"). -/
structure Config where
  NCPU : Nat
  PHYSTOP : Nat
  kend : Nat

/-- Sanity of the constants: `end` is the address of an object, hence not null, and
`PHYSTOP` lies at least two pages below the top of the 64-bit address space, so that
`p + PGSIZE` does not wrap around for any `p` the loop of `freerange` reaches from a
start at or below `PHYSTOP`. -/
def Config.WF (cfg : Config) : Prop :=
  0 < cfg.kend ∧ cfg.PHYSTOP + 2 * PGSIZE ≤ WORD

instance (cfg : Config) : Decidable cfg.WF := by
  unfold Config.WF; infer_instance

/-- Byte-addressed physical memory. -/
abbrev Mem := Nat → Nat

/-- Allocator state: physical memory and the array `kmems[NCPU]` of list heads. -/
structure State where
  mem : Mem
  freelist : Nat → Nat

/-- Modelled from the spec: `memset` (the spec's `fill(address_range, byte_value)`,
"overwrites a byte range with a repeated value"); `memset m dst c n` is the memory
after `memset(dst, c, n)`. -/
def memset (m : Mem) (dst c n : Nat) : Mem :=
  fun a => if dst ≤ a ∧ a < dst + n then c else m a

/-- The store `*(uint64*)p = v` (as in `r->next = ...`): eight bytes, little-endian. -/
def store64 (m : Mem) (p v : Nat) : Mem :=
  fun a => if p ≤ a ∧ a < p + 8 then (v / 256 ^ (a - p)) % 256 else m a

/-- The load `*(uint64*)p` (as in `r->next`): eight bytes, little-endian. -/
def load64 (m : Mem) (p : Nat) : Nat :=
  m p % 256 + (m (p + 1) % 256) * 256 ^ 1 + (m (p + 2) % 256) * 256 ^ 2
    + (m (p + 3) % 256) * 256 ^ 3 + (m (p + 4) % 256) * 256 ^ 4
    + (m (p + 5) % 256) * 256 ^ 5 + (m (p + 6) % 256) * 256 ^ 6
    + (m (p + 7) % 256) * 256 ^ 7

/-- Modelled from the spec: the macro `PGROUNDUP` of `riscv.h` ("rounds `start` up to
the next page boundary"), computed on `uint64`: `(sz + PGSIZE - 1) & ~(PGSIZE - 1)`. -/
def PGROUNDUP (sz : Nat) : Nat :=
  ((sz + PGSIZE - 1) % WORD) / PGSIZE * PGSIZE

/-- Result of an operation that may reach `panic`: the state at the point where the
call panicked, or the state when it returned. -/
inductive Outcome where
  | panic (s : State)
  | ok (s : State)

/-! ## The operations of `kalloc.c` -/

/-- The test at the top of `kfree` (line 52): the condition under which it panics. -/
def kfreeBad (cfg : Config) (pa : Nat) : Prop :=
  pa % PGSIZE ≠ 0 ∨ pa < cfg.kend ∨ pa ≥ cfg.PHYSTOP

instance (cfg : Config) (pa : Nat) : Decidable (kfreeBad cfg pa) := by
  unfold kfreeBad; infer_instance

/-- `kfree(pa)` executed on core `id` (lines 47-68). -/
def kfree (cfg : Config) (id pa : Nat) (s : State) : Outcome :=
  if kfreeBad cfg pa then
    Outcome.panic s
  else
    let m1 := memset s.mem pa 1 PGSIZE
    let m2 := store64 m1 pa (s.freelist id)
    Outcome.ok { mem := m2, freelist := Function.update s.freelist id pa }

/-- What `kalloc` hands back: the returned pointer, the state afterwards, and the
peer indices whose list was examined by the stealing loop, in order. -/
structure KallocResult where
  ret : Nat
  state : State
  probed : List Nat

/-- The stealing loop of `kalloc` (lines 88-102) over the remaining indices `i`:
skip `id`, skip peers whose list is empty, unlink the head of the first other one. -/
def kallocScan (id : Nat) (s : State) : List Nat → KallocResult
  | [] => { ret := 0, state := s, probed := [] }
  | i :: rest =>
    if i = id then
      kallocScan id s rest
    else if s.freelist i = 0 then
      let res := kallocScan id s rest
      { res with probed := i :: res.probed }
    else
      { ret := s.freelist i,
        state :=
          { s with freelist := Function.update s.freelist i (load64 s.mem (s.freelist i)) },
        probed := [i] }

/-- `kalloc()` executed on core `id` (lines 73-109). -/
def kalloc (cfg : Config) (id : Nat) (s : State) : KallocResult :=
  let res : KallocResult :=
    if s.freelist id ≠ 0 then
      { ret := s.freelist id,
        state :=
          { s with freelist := Function.update s.freelist id (load64 s.mem (s.freelist id)) },
        probed := [] }
    else
      kallocScan id s (List.range cfg.NCPU)
  if res.ret ≠ 0 then
    { res with state := { res.state with mem := memset res.state.mem res.ret 5 PGSIZE } }
  else
    res

/-- The loop of `freerange` (lines 39-40) with an iteration budget.  The result is
the list of addresses passed to `kfree`, in call order, and the outcome; `none` when
the budget is used up before the loop exits. -/
def freerangeLoop (cfg : Config) (id pa_end : Nat) :
    Nat → Nat → State → Option (List Nat × Outcome)
  | 0, _, _ => none
  | fuel + 1, p, s =>
    if (p + PGSIZE) % WORD ≤ pa_end then
      match kfree cfg id p s with
      | Outcome.panic s1 => some ([p], Outcome.panic s1)
      | Outcome.ok s1 =>
        (freerangeLoop cfg id pa_end fuel ((p + PGSIZE) % WORD) s1).map
          (fun r => (p :: r.1, r.2))
    else
      some ([], Outcome.ok s)

/-- `freerange(pa_start, pa_end)` executed on core `id` (lines 34-41).  There are
`2 ^ 52` page-aligned 64-bit addresses, so the budget `2 ^ 52 + 1` covers every run in
which `p` does not revisit an address. -/
def freerange (cfg : Config) (id pa_start pa_end : Nat) (s : State) :
    Option (List Nat × Outcome) :=
  freerangeLoop cfg id pa_end (2 ^ 52 + 1) (PGROUNDUP pa_start) s


/-- Modelled from the spec: the spinlock of a per-core list ("one lock per list",
"unlocked-but-initialized"); `struct spinlock` is declared in `spinlock.h`, outside
`kalloc.c`.  `inited` records that `initlock` has run, `locked` that the lock is held. -/
structure Spinlock where
  inited : Bool
  locked : Bool

/-- Modelled from the spec: `initlock` leaves the lock initialised and not held. -/
def initlock (_lk : Spinlock) : Spinlock :=
  { inited := true, locked := false }

/-- Modelled from the spec: `acquire` takes a lock that is not held; on a lock that is
held it does not return (`none`). -/
def acquire (lk : Spinlock) : Option Spinlock :=
  if lk.locked then none else some { lk with locked := true }

/-- Modelled from the spec: `release` leaves the lock not held. -/
def release (lk : Spinlock) : Spinlock :=
  { lk with locked := false }

/-- The loop of `kinit` (lines 29-30) for `i = 0, ..., n - 1`. -/
def initlocks : Nat → (Nat → Spinlock) → (Nat → Spinlock)
  | 0, locks => locks
  | n + 1, locks => Function.update (initlocks n locks) n (initlock (initlocks n locks n))

/-- The lock traffic of `k` calls of `kfree` that return on core `id`: each acquires
and releases the lock of core `id` (lines 64 and 67). -/
def kfreeLocks (id : Nat) : Nat → (Nat → Spinlock) → Option (Nat → Spinlock)
  | 0, locks => some locks
  | k + 1, locks =>
    (acquire (locks id)).bind (fun lk =>
      kfreeLocks id k (Function.update locks id (release lk)))

/-- What `kinit` leaves behind: the locks, the addresses it passed to `kfree`, and the
outcome of `freerange`. -/
structure KinitResult where
  locks : Nat → Spinlock
  freed : List Nat
  outcome : Outcome

/-- `kinit()` executed on core `id` (lines 26-32): `initlock` on every lock, then
`freerange(end, PHYSTOP)`; `none` when it does not return. -/
def kinit (cfg : Config) (id : Nat) (locks : Nat → Spinlock) (s : State) :
    Option KinitResult :=
  (freerange cfg id cfg.kend cfg.PHYSTOP s).bind (fun r =>
    match r.2 with
    | Outcome.ok s1 =>
      (kfreeLocks id r.1.length (initlocks cfg.NCPU locks)).map
        (fun lk => { locks := lk, freed := r.1, outcome := Outcome.ok s1 })
    | Outcome.panic s1 =>
      (kfreeLocks id (r.1.length - 1) (initlocks cfg.NCPU locks)).map
        (fun lk => { locks := lk, freed := r.1, outcome := Outcome.panic s1 }))

/-! ## `kalloc` step by step, for interleaved execution -/

/-- Where a core stands in `kalloc`: not in a call; about to `acquire` its own lock
(line 82); in the stealing loop at index `i`, its own lock held, about to test `i` and
`acquire` the lock of peer `i` (lines 88-92); about to `release` its own lock with `r`
in hand (line 104); returned `r`. -/
inductive Pc where
  | idle
  | acqOwn
  | acqPeer (i : Nat)
  | relOwn (r : Nat)
  | done (r : Nat)
  deriving DecidableEq

/-- The allocator shared by all cores: memory and list heads, the lock of every list,
and where every core stands. -/
structure Sys where
  st : State
  locks : Nat → Spinlock
  pc : Nat → Pc

/-- One step of core `c` in `kalloc`; `none` when the core has no step to take: it is
not in a call, or it spins in `acquire` on a lock that is held.
Line 82-85: acquire the own lock, read the own head, unlink it when non-null.
Lines 88-102: one iteration of the loop; a peer lock is acquired, the peer list is
examined (and its head unlinked when non-null), and the peer lock is released.
Lines 104-108: release the own lock, poison the frame found, return. -/
def coreStep (cfg : Config) (c : Nat) (S : Sys) : Option Sys :=
  match S.pc c with
  | Pc.idle => none
  | Pc.done _ => none
  | Pc.acqOwn =>
    (acquire (S.locks c)).map (fun lk =>
      if S.st.freelist c ≠ 0 then
        { st := { S.st with freelist :=
                    Function.update S.st.freelist c (load64 S.st.mem (S.st.freelist c)) },
          locks := Function.update S.locks c lk,
          pc := Function.update S.pc c (Pc.relOwn (S.st.freelist c)) }
      else
        { S with locks := Function.update S.locks c lk,
                 pc := Function.update S.pc c (Pc.acqPeer 0) })
  | Pc.acqPeer i =>
    if cfg.NCPU ≤ i then
      some { S with pc := Function.update S.pc c (Pc.relOwn 0) }
    else if i = c then
      some { S with pc := Function.update S.pc c (Pc.acqPeer (i + 1)) }
    else
      (acquire (S.locks i)).map (fun lk =>
        if S.st.freelist i = 0 then
          { S with locks := Function.update S.locks i (release lk),
                   pc := Function.update S.pc c (Pc.acqPeer (i + 1)) }
        else
          { st := { S.st with freelist :=
                      Function.update S.st.freelist i (load64 S.st.mem (S.st.freelist i)) },
            locks := Function.update S.locks i (release lk),
            pc := Function.update S.pc c (Pc.relOwn (S.st.freelist i)) })
  | Pc.relOwn r =>
    some
      { st := if r ≠ 0 then { S.st with mem := memset S.st.mem r 5 PGSIZE } else S.st,
        locks := Function.update S.locks c (release (S.locks c)),
        pc := Function.update S.pc c (Pc.done r) }

/-- An interleaving: the cores of the schedule take one step each, in order; `none`
when a scheduled core has no step to take. -/
def runSched (cfg : Config) : List Nat → Sys → Option Sys
  | [], S => some S
  | c :: cs, S => (coreStep cfg c S).bind (runSched cfg cs)

/-- Cores 0 and 1 have just called `kalloc()`; every other core is outside the
allocator. -/
def twoCallers (st : State) (locks : Nat → Spinlock) : Sys :=
  { st := st, locks := locks, pc := fun c => if c < 2 then Pc.acqOwn else Pc.idle }

/-! ## Vocabulary of the specification -/

/-- The address passes the validation of `kfree`: page-aligned, at or above `end`,
below `PHYSTOP`. -/
def kfreeOk (cfg : Config) (pa : Nat) : Prop :=
  pa % PGSIZE = 0 ∧ cfg.kend ≤ pa ∧ pa < cfg.PHYSTOP

instance (cfg : Config) (pa : Nat) : Decidable (kfreeOk cfg pa) := by
  unfold kfreeOk; infer_instance

/-- The state an `Outcome` carries. -/
def Outcome.state : Outcome → State
  | Outcome.panic s => s
  | Outcome.ok s => s

/-- Whether the operation ended in `panic`. -/
def Outcome.panicked : Outcome → Bool
  | Outcome.panic _ => true
  | Outcome.ok _ => false

/-- The intrusive list starting at pointer `p` in memory `m` consists of exactly the
frames `l`, in order: every frame is non-null, its first word links to the next one,
and the last link is null. -/
def IsList (m : Mem) : Nat → List Nat → Prop
  | p, [] => p = 0
  | p, x :: t => p = x ∧ x ≠ 0 ∧ IsList m (load64 m x) t

instance decIsList (m : Mem) : (p : Nat) → (l : List Nat) → Decidable (IsList m p l)
  | p, [] => inferInstanceAs (Decidable (p = 0))
  | p, x :: t =>
    have := decIsList m (load64 m x) t
    inferInstanceAs (Decidable (p = x ∧ x ≠ 0 ∧ IsList m (load64 m x) t))

/-- The data-model invariants of the specification (section 3) for a state `s` whose
per-core lists are `L 0, ..., L (NCPU - 1)`: each head pointer starts the intrusive
list `L i`, every linked frame passes the validation of `kfree`, no frame is linked
twice in one list, and no frame is linked into two lists. -/
structure Inv (cfg : Config) (s : State) (L : Nat → List Nat) : Prop where
  rep : ∀ i, i < cfg.NCPU → IsList s.mem (s.freelist i) (L i)
  valid : ∀ i x, x ∈ L i → kfreeOk cfg x
  nodup : ∀ i, (L i).Nodup
  disj : ∀ i j x, x ∈ L i → x ∈ L j → i = j

/-- The pages `p, p + PGSIZE, ..., p + (n - 1) * PGSIZE`. -/
def pagesFrom (p n : Nat) : List Nat :=
  (List.range n).map (fun k => p + k * PGSIZE)

/-- The number of iterations of the loop of `freerange(start, stop)`: the number of
`k` with `PGROUNDUP(start) + k * PGSIZE + PGSIZE ≤ stop`. -/
def pageCount (start stop : Nat) : Nat :=
  (stop - PGROUNDUP start) / PGSIZE

/-- The page-aligned addresses `p` with `start ≤ p` and `p + PGSIZE ≤ stop`: the whole
pages of the range `[start, stop)`. -/
@[irreducible]
def wholePages (start stop : Nat) : Finset Nat :=
  (Finset.range stop).filter (fun p => p % PGSIZE = 0 ∧ start ≤ p ∧ p + PGSIZE ≤ stop)

/-- A call of the allocator interface, with the core that executes it. -/
inductive Call where
  | kfree (id pa : Nat)
  | kalloc (id : Nat)
  | freerange (id pa_start pa_end : Nat)

/-- The core that executes a call. -/
def Call.core : Call → Nat
  | Call.kfree id _ => id
  | Call.kalloc id => id
  | Call.freerange id _ _ => id

/-- What a run makes visible: `freed pa` for each `kfree(pa)` that returned (issued
directly or by `freerange`), `alloc r` for each `kalloc()` that returned `r`. -/
inductive Event where
  | freed (pa : Nat)
  | alloc (r : Nat)
  deriving DecidableEq

/-- The log entries of a run of `kfree` calls on the addresses `ps` that ended in the
given outcome; `none` when it ended in a panic. -/
def logFreed (ps : List Nat) : Outcome → Option (List Event × State)
  | Outcome.ok s1 => some (ps.map Event.freed, s1)
  | Outcome.panic _ => none

/-- One call: its events and the state afterwards; `none` when the call panics. -/
def step (cfg : Config) : Call → State → Option (List Event × State)
  | Call.kfree id pa, s => logFreed [pa] (kfree cfg id pa s)
  | Call.kalloc id, s =>
    some ([Event.alloc (kalloc cfg id s).ret], (kalloc cfg id s).state)
  | Call.freerange id a b, s =>
    (freerange cfg id a b s).bind (fun r => logFreed r.1 r.2)

/-- A sequence of calls, one after the other: the log of events and the final state;
`none` when some call panics. -/
def exec (cfg : Config) : List Call → State → Option (List Event × State)
  | [], s => some ([], s)
  | c :: cs, s =>
    (step cfg c s).bind (fun r1 =>
      (exec cfg cs r1.2).map (fun r2 => (r1.1 ++ r2.1, r2.2)))

/-- No address is returned by two `kalloc()` calls of the log unless a `kfree` of that
address occurs between them. -/
def NoDoubleIssue (log : List Event) : Prop :=
  ∀ (a b c : List Event) (x : Nat), x ≠ 0 →
    log = a ++ Event.alloc x :: b ++ Event.alloc x :: c → Event.freed x ∈ b

/-- No address is freed twice in the log unless a `kalloc()` returning that address
occurs between the two frees. -/
def NoDoubleFree (log : List Event) : Prop :=
  ∀ (a b c : List Event) (x : Nat),
    log = a ++ Event.freed x :: b ++ Event.freed x :: c → Event.alloc x ∈ b

/-- Whether address `x` is free at the end of the log: its last event is a `freed`. -/
def freeAfter (x : Nat) (log : List Event) : Bool :=
  log.foldl (fun b e =>
    match e with
    | Event.freed y => if y = x then true else b
    | Event.alloc y => if y = x then false else b) false

/-- Calls `kalloc()` on cores `sched k, sched (k + 1), ...` until it first returns 0
and collects the frames obtained; `none` when the budget of calls is used up first. -/
def kallocUntilEmpty (cfg : Config) (sched : Nat → Nat) :
    Nat → Nat → State → Option (List Nat)
  | 0, _, _ => none
  | fuel + 1, k, s =>
    if (kalloc cfg (sched k) s).ret = 0 then
      some []
    else
      (kallocUntilEmpty cfg sched fuel (k + 1) (kalloc cfg (sched k) s).state).map
        (fun rs => (kalloc cfg (sched k) s).ret :: rs)

/-- The pointers returned by `kalloc()` called on the cores `cs`, one after the other,
and the state afterwards. -/
def kallocs (cfg : Config) : List Nat → State → List Nat × State
  | [], s => ([], s)
  | c :: cs, s =>
    let r := kallocs cfg cs (kalloc cfg c s).state
    ((kalloc cfg c s).ret :: r.1, r.2)

/-- The state an outcome hands on to the next call; `none` after a panic. -/
def Outcome.returned : Outcome → Option State
  | Outcome.ok s1 => some s1
  | Outcome.panic _ => none

/-- A sequence of `freerange` calls `(core, start, stop)`, one after the other; `none`
when one of them panics. -/
def freeranges (cfg : Config) : List (Nat × Nat × Nat) → State → Option State
  | [], s => some s
  | r :: rs, s =>
    ((freerange cfg r.1 r.2.1 r.2.2 s).bind (fun res => res.2.returned)).bind
      (fun s1 => freeranges cfg rs s1)

/-- One event of a run: `freed x` is a `kfree(x)` by some core that returned, `alloc r`
is a `kalloc()` by some core that returned `r`. -/
def EvStep (cfg : Config) (s : State) : Event → State → Prop
  | Event.freed x, s1 => ∃ id, id < cfg.NCPU ∧ kfree cfg id x s = Outcome.ok s1
  | Event.alloc r, s1 =>
    ∃ id, id < cfg.NCPU ∧ (kalloc cfg id s).ret = r ∧ (kalloc cfg id s).state = s1

/-- The state `s1` is reached from `s` by the events of the log, one `kfree` or
`kalloc` call per event. -/
def EvRun (cfg : Config) : State → List Event → State → Prop
  | s, [], s1 => s1 = s
  | s, e :: es, s1 => ∃ s2, EvStep cfg s e s2 ∧ EvRun cfg s2 es s1

/-- The address of a `freed` event. -/
def Event.freedAddr : Event → Option Nat
  | Event.freed x => some x
  | Event.alloc _ => none

/-- A checker for `NoDoubleFree`: walks the log after the events `pre` and rejects a
`freed x` when `x` is free at that point. -/
def ndfFrom (pre : List Event) : List Event → Bool
  | [] => true
  | Event.freed x :: l => !(freeAfter x pre) && ndfFrom (pre ++ [Event.freed x]) l
  | Event.alloc r :: l => ndfFrom (pre ++ [Event.alloc r]) l

/-- The frames that are outstanding (returned by `kalloc()` and not yet freed) after
the events of the log, starting from the outstanding frames `O`. -/
def outstanding : List Nat → List Event → List Nat
  | O, [] => O
  | O, Event.alloc r :: l => outstanding (if r = 0 then O else r :: O) l
  | O, Event.freed x :: l => outstanding (O.erase x) l

/-- Every `kfree` of the log is applied to a frame that is outstanding at that point,
starting from the outstanding frames `O`. -/
def FreesOutstanding : List Nat → List Event → Prop
  | _, [] => True
  | O, Event.alloc r :: l => FreesOutstanding (if r = 0 then O else r :: O) l
  | O, Event.freed x :: l => x ∈ O ∧ FreesOutstanding (O.erase x) l

instance decFreesOutstanding : (O : List Nat) → (log : List Event) →
    Decidable (FreesOutstanding O log)
  | _, [] => inferInstanceAs (Decidable True)
  | O, Event.alloc r :: l =>
    decFreesOutstanding (if r = 0 then O else r :: O) l
  | O, Event.freed x :: l =>
    have := decFreesOutstanding (O.erase x) l
    inferInstanceAs (Decidable (x ∈ O ∧ FreesOutstanding (O.erase x) l))

/-! ## Concrete instances -/

/-- The configuration of the stock kernel: `NCPU = 8`, `PHYSTOP = 0x88000000`, and a
kernel image ending at `0x80021000`. -/
def xv6 : Config := { NCPU := 8, PHYSTOP := 0x88000000, kend := 0x80021000 }

/-- Zeroed memory with every per-core list empty. -/
def emptyState : State := { mem := fun _ => 0, freelist := fun _ => 0 }

/-- The locks of the zero-initialised array `kmems` before `kinit`. -/
def bootLocks : Nat → Spinlock := fun _ => { inited := false, locked := false }

/-! ## Lemmas about memory, lists and the operations -/

theorem kallocScan_none (id : Nat) (s : State) (is : List Nat)
    (h : ∀ i ∈ is, i ≠ id → s.freelist i = 0) :
    kallocScan id s is = { ret := 0, state := s, probed := is.filter (fun i => i ≠ id) } := by
  induction is with
  | nil => rfl
  | cons i rest ih =>
    have ih1 := ih (fun k hk => h k (List.mem_cons_of_mem _ hk))
    by_cases hi : i = id
    · simp [kallocScan, hi, ih1]
    · have h0 := h i (List.mem_cons_self _ _) hi
      simp [kallocScan, hi, h0, ih1]

theorem kallocScan_some (id : Nat) (s : State) (pre post : List Nat) (j : Nat)
    (h : ∀ i ∈ pre, i ≠ id → s.freelist i = 0) (hj : j ≠ id) (hne : s.freelist j ≠ 0) :
    kallocScan id s (pre ++ j :: post) =
      { ret := s.freelist j,
        state := { s with freelist := Function.update s.freelist j (load64 s.mem (s.freelist j)) },
        probed := pre.filter (fun i => i ≠ id) ++ [j] } := by
  induction pre with
  | nil => simp [kallocScan, hj, hne]
  | cons i rest ih =>
    have ih1 := ih (fun k hk => h k (List.mem_cons_of_mem _ hk))
    by_cases hi : i = id
    · simp [kallocScan, hi, ih1]
    · have h0 := h i (List.mem_cons_self _ _) hi
      simp [kallocScan, hi, h0, ih1]

theorem range_split (n j : Nat) (hj : j < n) :
    List.range n = List.range j ++ j :: List.range' (j + 1) (n - (j + 1)) := by
  have h1 : n = ((n - (j + 1)) + 1) + j := by omega
  conv_lhs => rw [h1]
  rw [List.range_eq_range', List.range_eq_range', ← List.range'_append_1, List.range'_succ]
  simp


theorem load64_congr (m m1 : Mem) (p : Nat)
    (h : ∀ a, p ≤ a → a < p + 8 → m1 a = m a) : load64 m1 p = load64 m p := by
  unfold load64
  rw [h p (by omega) (by omega), h (p + 1) (by omega) (by omega),
    h (p + 2) (by omega) (by omega), h (p + 3) (by omega) (by omega),
    h (p + 4) (by omega) (by omega), h (p + 5) (by omega) (by omega),
    h (p + 6) (by omega) (by omega), h (p + 7) (by omega) (by omega)]

theorem load64_lt (m : Mem) (p : Nat) : load64 m p < WORD := by
  unfold load64 WORD
  omega

theorem load64_store64 (m : Mem) (p v : Nat) (hv : v < WORD) :
    load64 (store64 m p v) p = v := by
  unfold WORD at hv
  unfold load64 store64
  simp
  omega

theorem store64_outside (m : Mem) (p v a : Nat) (h : ¬ (p ≤ a ∧ a < p + 8)) :
    store64 m p v a = m a := by
  unfold store64; simp only [h, if_false]

theorem memset_outside (m : Mem) (p c n a : Nat) (h : ¬ (p ≤ a ∧ a < p + n)) :
    memset m p c n a = m a := by
  unfold memset; simp only [h, if_false]

theorem memset_inside (m : Mem) (p c n a : Nat) (h1 : p ≤ a) (h2 : a < p + n) :
    memset m p c n a = c := by
  unfold memset; simp [h1, h2]

theorem IsList_congr (m m1 : Mem) (l : List Nat) :
    ∀ p, IsList m p l → (∀ x ∈ l, ∀ a, x ≤ a → a < x + 8 → m1 a = m a) → IsList m1 p l := by
  induction l with
  | nil => intro p h _; exact h
  | cons x t ih =>
    intro p h hm
    obtain ⟨h1, h2, h3⟩ := h
    refine ⟨h1, h2, ?_⟩
    rw [load64_congr m m1 x (hm x (List.mem_cons_self _ _))]
    exact ih _ h3 (fun y hy => hm y (List.mem_cons_of_mem _ hy))

theorem IsList_unique (m : Mem) (l1 : List Nat) :
    ∀ (l2 : List Nat) (p : Nat), IsList m p l1 → IsList m p l2 → l1 = l2 := by
  induction l1 with
  | nil =>
    intro l2 p h1 h2
    cases l2 with
    | nil => rfl
    | cons y t => exact absurd (h2.1 ▸ h1) h2.2.1
  | cons x t ih =>
    intro l2 p h1 h2
    cases l2 with
    | nil => exact absurd (h1.1 ▸ h2) h1.2.1
    | cons y u =>
      have hxy : x = y := h1.1.symm.trans h2.1
      subst hxy
      rw [ih u _ h1.2.2 h2.2.2]

theorem IsList_head_eq_zero_iff (m : Mem) (p : Nat) (l : List Nat) (h : IsList m p l) :
    p = 0 ↔ l = [] := by
  cases l with
  | nil => exact ⟨fun _ => rfl, fun _ => h⟩
  | cons x t =>
    constructor
    · intro hp; exact absurd (h.1 ▸ hp) h.2.1
    · intro hl; cases hl


/-- The state in which `kfree(pa)` on core `id` returns when `pa` passes validation. -/
theorem kfree_ok (cfg : Config) (id pa : Nat) (s : State) (h : kfreeOk cfg pa) :
    kfree cfg id pa s = Outcome.ok
      { mem := store64 (memset s.mem pa 1 PGSIZE) pa (s.freelist id),
        freelist := Function.update s.freelist id pa } := by
  have hb : ¬ kfreeBad cfg pa := by
    unfold kfreeBad; unfold kfreeOk at h; omega
  simp [kfree, hb]

theorem kfree_panic (cfg : Config) (id pa : Nat) (s : State) (h : ¬ kfreeOk cfg pa) :
    kfree cfg id pa s = Outcome.panic s := by
  have hb : kfreeBad cfg pa := by
    unfold kfreeBad; unfold kfreeOk at h; omega
  simp [kfree, hb]

theorem kallocScan_mem (id : Nat) (s : State) (is : List Nat) :
    (kallocScan id s is).state.mem = s.mem := by
  induction is with
  | nil => rfl
  | cons i rest ih =>
    by_cases hi : i = id
    · simp [kallocScan, hi, ih]
    · by_cases h0 : s.freelist i = 0
      · simp [kallocScan, hi, h0, ih]
      · simp [kallocScan, hi, h0]

theorem kalloc_local (cfg : Config) (id : Nat) (s : State) (h : s.freelist id ≠ 0) :
    kalloc cfg id s =
      { ret := s.freelist id,
        state := { mem := memset s.mem (s.freelist id) 5 PGSIZE,
                   freelist := Function.update s.freelist id (load64 s.mem (s.freelist id)) },
        probed := [] } := by
  simp [kalloc, h]

theorem kalloc_steal (cfg : Config) (id j : Nat) (s : State) (h : s.freelist id = 0)
    (hj : j < cfg.NCPU) (hji : j ≠ id) (hne : s.freelist j ≠ 0)
    (hlow : ∀ i, i < j → i ≠ id → s.freelist i = 0) :
    kalloc cfg id s =
      { ret := s.freelist j,
        state := { mem := memset s.mem (s.freelist j) 5 PGSIZE,
                   freelist := Function.update s.freelist j (load64 s.mem (s.freelist j)) },
        probed := (List.range j).filter (fun i => i ≠ id) ++ [j] } := by
  have hs := kallocScan_some id s (List.range j) (List.range' (j + 1) (cfg.NCPU - (j + 1))) j
    (fun i hi => hlow i (List.mem_range.mp hi)) hji hne
  rw [← range_split cfg.NCPU j hj] at hs
  simp [kalloc, h, hs, hne]

theorem kalloc_empty (cfg : Config) (id : Nat) (s : State)
    (h0 : s.freelist id = 0) (h : ∀ i, i < cfg.NCPU → i ≠ id → s.freelist i = 0) :
    kalloc cfg id s =
      { ret := 0, state := s, probed := (List.range cfg.NCPU).filter (fun i => i ≠ id) } := by
  have hs := kallocScan_none id s (List.range cfg.NCPU) (fun i hi => h i (List.mem_range.mp hi))
  simp [kalloc, h0, hs]

/-- The three ways `kalloc` can go, by the head pointers. -/
theorem kalloc_cases (cfg : Config) (id : Nat) (s : State) :
    (s.freelist id ≠ 0) ∨
    (s.freelist id = 0 ∧ ∀ i, i < cfg.NCPU → i ≠ id → s.freelist i = 0) ∨
    (s.freelist id = 0 ∧ ∃ j, j < cfg.NCPU ∧ j ≠ id ∧ s.freelist j ≠ 0 ∧
      ∀ i, i < j → i ≠ id → s.freelist i = 0) := by
  by_cases h0 : s.freelist id = 0
  · right
    by_cases hall : ∀ i, i < cfg.NCPU → i ≠ id → s.freelist i = 0
    · exact Or.inl ⟨h0, hall⟩
    · right
      refine ⟨h0, ?_⟩
      have hex : ∃ j, j < cfg.NCPU ∧ j ≠ id ∧ s.freelist j ≠ 0 := by
        by_contra hc
        apply hall
        intro i hi hid
        by_contra hne
        exact hc ⟨i, hi, hid, hne⟩
      classical
      refine ⟨Nat.find hex, (Nat.find_spec hex).1, (Nat.find_spec hex).2.1,
        (Nat.find_spec hex).2.2, ?_⟩
      intro i hi hid
      by_contra hne
      exact Nat.find_min hex hi ⟨lt_trans hi (Nat.find_spec hex).1, hid, hne⟩
  · exact Or.inl h0

theorem page_disjoint (cfg : Config) (e x a : Nat) (he : kfreeOk cfg e) (hx : kfreeOk cfg x)
    (hne : e ≠ x) (h1 : e ≤ a) (h2 : a < e + 8) : ¬ (x ≤ a ∧ a < x + PGSIZE) := by
  unfold kfreeOk PGSIZE at he hx
  unfold PGSIZE
  omega

theorem Inv.head_eq_zero_iff {cfg : Config} {s : State} {L : Nat → List Nat}
    (hinv : Inv cfg s L) (i : Nat) (hi : i < cfg.NCPU) : s.freelist i = 0 ↔ L i = [] :=
  IsList_head_eq_zero_iff s.mem _ _ (hinv.rep i hi)

theorem Inv.head_lt {cfg : Config} {s : State} {L : Nat → List Nat}
    (hinv : Inv cfg s L) (hwf : cfg.WF) (i : Nat) (hi : i < cfg.NCPU) :
    s.freelist i < WORD := by
  have h := hinv.rep i hi
  cases hl : L i with
  | nil =>
    rw [hl] at h
    have h0 : s.freelist i = 0 := h
    rw [h0]; unfold WORD; omega
  | cons x t =>
    rw [hl] at h
    have hv := hinv.valid i x (by rw [hl]; exact List.mem_cons_self _ _)
    have hx : s.freelist i = x := h.1
    unfold Config.WF at hwf
    unfold kfreeOk at hv
    omega

theorem IsList_head {m : Mem} {p x : Nat} {t : List Nat} (h : IsList m p (x :: t)) : p = x :=
  h.1

/-- Pushing a fresh valid frame with `kfree` keeps the data-model invariants. -/
theorem kfree_inv (cfg : Config) (id x : Nat) (s : State) (L : Nat → List Nat)
    (hwf : cfg.WF) (hid : id < cfg.NCPU) (hx : kfreeOk cfg x) (hinv : Inv cfg s L)
    (hfresh : ∀ i, x ∉ L i) :
    kfree cfg id x s = Outcome.ok (kfree cfg id x s).state ∧
      Inv cfg (kfree cfg id x s).state (Function.update L id (x :: L id)) := by
  have hk := kfree_ok cfg id x s hx
  rw [hk]
  refine ⟨rfl, ?_⟩
  simp only [Outcome.state]
  have hmem : ∀ i, ∀ e ∈ L i, ∀ a, e ≤ a → a < e + 8 →
      store64 (memset s.mem x 1 PGSIZE) x (s.freelist id) a = s.mem a := by
    intro i e he a h1 h2
    have hex : e ≠ x := fun h => hfresh i (h ▸ he)
    have hd := page_disjoint cfg e x a (hinv.valid i e he) hx hex h1 h2
    rw [store64_outside _ _ _ _ (by unfold PGSIZE at hd; omega), memset_outside _ _ _ _ _ hd]
  constructor
  · intro i hi
    by_cases hii : i = id
    · subst hii
      simp only [Function.update_same]
      refine ⟨rfl, ?_, ?_⟩
      · unfold Config.WF at hwf; unfold kfreeOk at hx; omega
      · rw [load64_store64 _ _ _ (hinv.head_lt hwf i hi)]
        exact IsList_congr s.mem _ _ _ (hinv.rep i hi) (hmem i)
    · simp only [Function.update_noteq hii]
      exact IsList_congr s.mem _ _ _ (hinv.rep i hi) (hmem i)
  · intro i y hy
    by_cases hii : i = id
    · subst hii
      simp only [Function.update_same, List.mem_cons] at hy
      rcases hy with rfl | hy
      · exact hx
      · exact hinv.valid i y hy
    · simp only [Function.update_noteq hii] at hy
      exact hinv.valid i y hy
  · intro i
    by_cases hii : i = id
    · subst hii
      simp only [Function.update_same]
      exact List.nodup_cons.mpr ⟨hfresh i, hinv.nodup i⟩
    · simp only [Function.update_noteq hii]
      exact hinv.nodup i
  · intro i j y hyi hyj
    by_cases hii : i = id <;> by_cases hjj : j = id
    · rw [hii, hjj]
    · exfalso
      subst hii
      simp only [Function.update_same, List.mem_cons, Function.update_noteq hjj] at hyi hyj
      rcases hyi with rfl | hyi
      · exact hfresh j hyj
      · exact hjj (hinv.disj _ _ y hyi hyj).symm
    · exfalso
      subst hjj
      simp only [Function.update_same, List.mem_cons, Function.update_noteq hii] at hyi hyj
      rcases hyj with rfl | hyj
      · exact hfresh i hyi
      · exact hii (hinv.disj _ _ y hyi hyj)
    · simp only [Function.update_noteq hii, Function.update_noteq hjj] at hyi hyj
      exact hinv.disj _ _ y hyi hyj

/-- Unlinking the head of list `j` and poisoning it keeps the data-model invariants. -/
theorem pop_inv (cfg : Config) (j r : Nat) (t : List Nat) (s : State) (L : Nat → List Nat)
    (hinv : Inv cfg s L) (hj : j < cfg.NCPU) (hl : L j = r :: t) :
    Inv cfg { mem := memset s.mem r 5 PGSIZE,
              freelist := Function.update s.freelist j (load64 s.mem r) }
      (Function.update L j t) := by
  have hrj : r ∈ L j := by rw [hl]; exact List.mem_cons_self _ _
  have hnd : (r :: t).Nodup := hl ▸ hinv.nodup j
  have hsub : ∀ i y, y ∈ Function.update L j t i → y ∈ L i ∧ y ≠ r := by
    intro i y hy
    by_cases hij : i = j
    · subst hij
      simp only [Function.update_same] at hy
      refine ⟨by rw [hl]; exact List.mem_cons_of_mem _ hy, ?_⟩
      rintro rfl
      exact (List.nodup_cons.mp hnd).1 hy
    · simp only [Function.update_noteq hij] at hy
      refine ⟨hy, ?_⟩
      rintro rfl
      exact hij (hinv.disj _ _ y hy hrj)
  have hmem : ∀ i, ∀ e ∈ Function.update L j t i, ∀ a, e ≤ a → a < e + 8 →
      memset s.mem r 5 PGSIZE a = s.mem a := by
    intro i e he a h1 h2
    obtain ⟨hei, her⟩ := hsub i e he
    exact memset_outside _ _ _ _ _
      (page_disjoint cfg e r a (hinv.valid i e hei) (hinv.valid j r hrj) her h1 h2)
  constructor
  · intro i hi
    by_cases hij : i = j
    · subst hij
      have hrep := hinv.rep i hi
      rw [hl] at hrep
      have h3 := hmem i
      simp only [Function.update_same] at h3 ⊢
      exact IsList_congr s.mem _ _ _ hrep.2.2 h3
    · have h3 := hmem i
      simp only [Function.update_noteq hij] at h3 ⊢
      exact IsList_congr s.mem _ _ _ (hinv.rep i hi) h3
  · intro i y hy
    exact hinv.valid i y (hsub i y hy).1
  · intro i
    by_cases hij : i = j
    · subst hij
      simp only [Function.update_same]
      exact (List.nodup_cons.mp hnd).2
    · simp only [Function.update_noteq hij]
      exact hinv.nodup i
  · intro i k y hyi hyk
    exact hinv.disj i k y (hsub i y hyi).1 (hsub k y hyk).1

/-- What `kalloc` does to a state that satisfies the data-model invariants: either
every list is empty and nothing changes, or the head `r` of one list `j` (the own list,
or the lowest-indexed non-empty peer when the own list is empty) is unlinked. -/
theorem kalloc_inv (cfg : Config) (id : Nat) (s : State) (L : Nat → List Nat)
    (hid : id < cfg.NCPU) (hinv : Inv cfg s L) :
    ((∀ i, i < cfg.NCPU → L i = []) ∧
      kalloc cfg id s =
        { ret := 0, state := s, probed := (List.range cfg.NCPU).filter (fun i => i ≠ id) }) ∨
    (∃ j r t, j < cfg.NCPU ∧ L j = r :: t ∧ r ≠ 0 ∧
      (j = id ∨ (j ≠ id ∧ L id = [] ∧ ∀ i, i < j → i ≠ id → L i = [])) ∧
      (kalloc cfg id s).ret = r ∧
      (kalloc cfg id s).state =
        { mem := memset s.mem r 5 PGSIZE,
          freelist := Function.update s.freelist j (load64 s.mem r) } ∧
      Inv cfg (kalloc cfg id s).state (Function.update L j t)) := by
  have hfound : ∀ j, j < cfg.NCPU → s.freelist j ≠ 0 →
      ∃ t, L j = s.freelist j :: t := by
    intro j hj hne
    have hrep := hinv.rep j hj
    cases hl : L j with
    | nil => rw [hl] at hrep; exact absurd hrep hne
    | cons x t =>
      rw [hl] at hrep
      exact ⟨t, by rw [hrep.1]⟩
  rcases kalloc_cases cfg id s with h | ⟨h0, hall⟩ | ⟨h0, j, hj, hji, hne, hlow⟩
  · right
    obtain ⟨t, hl⟩ := hfound id hid h
    have hk := kalloc_local cfg id s h
    refine ⟨id, s.freelist id, t, hid, hl, h, Or.inl rfl, by rw [hk], by rw [hk], ?_⟩
    rw [hk]
    exact pop_inv cfg id _ t s L hinv hid hl
  · left
    refine ⟨?_, kalloc_empty cfg id s h0 hall⟩
    intro i hi
    by_cases hii : i = id
    · subst hii; exact (hinv.head_eq_zero_iff i hi).mp h0
    · exact (hinv.head_eq_zero_iff i hi).mp (hall i hi hii)
  · right
    obtain ⟨t, hl⟩ := hfound j hj hne
    have hk := kalloc_steal cfg id j s h0 hj hji hne hlow
    refine ⟨j, s.freelist j, t, hj, hl, hne, Or.inr ⟨hji, ?_, ?_⟩, by rw [hk], by rw [hk], ?_⟩
    · exact (hinv.head_eq_zero_iff id hid).mp h0
    · intro i hi hii
      exact (hinv.head_eq_zero_iff i (lt_trans hi hj)).mp (hlow i hi hii)
    · rw [hk]
      exact pop_inv cfg j _ t s L hinv hj hl

theorem inv_empty (cfg : Config) (s : State) (h : ∀ i, i < cfg.NCPU → s.freelist i = 0) :
    Inv cfg s (fun _ => []) where
  rep := fun i hi => h i hi
  valid := fun _ _ hx => absurd hx (List.not_mem_nil _)
  nodup := fun _ => List.nodup_nil
  disj := fun _ _ _ hx => absurd hx (List.not_mem_nil _)

theorem IsList_head_eq_of_same_list (m1 m2 : Mem) (p1 p2 : Nat) (l : List Nat)
    (h1 : IsList m1 p1 l) (h2 : IsList m2 p2 l) : p1 = p2 := by
  cases l with
  | nil => exact Eq.trans h1 (Eq.symm h2)
  | cons x t => exact h1.1.trans h2.1.symm

theorem pagesFrom_zero (p : Nat) : pagesFrom p 0 = [] := rfl

theorem pagesFrom_succ (p n : Nat) :
    pagesFrom p (n + 1) = p :: pagesFrom (p + PGSIZE) n := by
  unfold pagesFrom
  rw [List.range_succ_eq_map, List.map_cons, List.map_map]
  congr 1
  apply List.map_congr_left
  intro k _
  show p + (k + 1) * PGSIZE = p + PGSIZE + k * PGSIZE
  ring

theorem mem_pagesFrom (p n y : Nat) : y ∈ pagesFrom p n ↔ ∃ k, k < n ∧ y = p + k * PGSIZE := by
  unfold pagesFrom
  simp only [List.mem_map, List.mem_range]
  constructor
  · rintro ⟨k, hk, rfl⟩; exact ⟨k, hk, rfl⟩
  · rintro ⟨k, hk, rfl⟩; exact ⟨k, hk, rfl⟩

theorem length_pagesFrom (p n : Nat) : (pagesFrom p n).length = n := by
  unfold pagesFrom; simp

/-- The loop of `freerange`, started at an aligned `p` in a state that satisfies the
data-model invariants, frees the `n` whole pages below `pa_end` in increasing order and
pushes them onto the list of the calling core. -/
theorem freerangeLoop_inv (cfg : Config) (id pa_end : Nat) (hwf : cfg.WF)
    (hid : id < cfg.NCPU) (hend : pa_end ≤ cfg.PHYSTOP) :
    ∀ (n fuel p : Nat) (s : State) (L : Nat → List Nat), n < fuel → p % PGSIZE = 0 →
      cfg.kend ≤ p → p + PGSIZE < WORD → (n = 0 ∨ p + n * PGSIZE ≤ pa_end) →
      pa_end < p + (n + 1) * PGSIZE → Inv cfg s L →
      (∀ y ∈ pagesFrom p n, ∀ i, y ∉ L i) →
      ∃ s1, freerangeLoop cfg id pa_end fuel p s = some (pagesFrom p n, Outcome.ok s1) ∧
        Inv cfg s1 (Function.update L id ((pagesFrom p n).reverse ++ L id)) := by
  intro n
  induction n with
  | zero =>
    intro fuel p s L hf _ _ hp _ hhi hinv _
    obtain ⟨f, rfl⟩ : ∃ f, fuel = f + 1 := ⟨fuel - 1, by omega⟩
    have hnw : (p + PGSIZE) % WORD = p + PGSIZE := Nat.mod_eq_of_lt hp
    have hc : ¬ ((p + PGSIZE) % WORD ≤ pa_end) := by rw [hnw]; omega
    refine ⟨s, ?_, ?_⟩
    · simp only [freerangeLoop, hc, if_false, pagesFrom_zero]
    · simp only [pagesFrom_zero, List.reverse_nil, List.nil_append, Function.update_eq_self]
      exact hinv
  | succ n ih =>
    intro fuel p s L hf hal hlo hp hn hhi hinv hfresh
    obtain ⟨f, rfl⟩ : ∃ f, fuel = f + 1 := ⟨fuel - 1, by omega⟩
    have hn1 : p + (n + 1) * PGSIZE ≤ pa_end := by
      rcases hn with h | h
      · omega
      · exact h
    have hnw : (p + PGSIZE) % WORD = p + PGSIZE := Nat.mod_eq_of_lt hp
    have hc : (p + PGSIZE) % WORD ≤ pa_end := by
      rw [hnw]
      have : PGSIZE ≤ (n + 1) * PGSIZE := Nat.le_mul_of_pos_left _ (by omega)
      omega
    have hpv : kfreeOk cfg p := by
      refine ⟨hal, hlo, ?_⟩
      rw [hnw] at hc
      unfold PGSIZE at hc; omega
    have hpf : ∀ i, p ∉ L i :=
      hfresh p ((mem_pagesFrom p (n + 1) p).mpr ⟨0, by omega, by simp⟩)
    obtain ⟨hk, hinv1⟩ := kfree_inv cfg id p s L hwf hid hpv hinv hpf
    have hal1 : (p + PGSIZE) % PGSIZE = 0 := by unfold PGSIZE at hal ⊢; omega
    have hfresh1 : ∀ y ∈ pagesFrom (p + PGSIZE) n,
        ∀ i, y ∉ Function.update L id (p :: L id) i := by
      intro y hy i hyi
      have hy1 : y ∈ pagesFrom p (n + 1) := by
        rw [pagesFrom_succ]; exact List.mem_cons_of_mem _ hy
      obtain ⟨k, _, hyk⟩ := (mem_pagesFrom _ _ _).mp hy
      have hyp : y ≠ p := by
        unfold PGSIZE at hyk; omega
      by_cases hii : i = id
      · subst hii
        simp only [Function.update_same, List.mem_cons] at hyi
        rcases hyi with h | h
        · exact hyp h
        · exact hfresh y hy1 i h
      · simp only [Function.update_noteq hii] at hyi
        exact hfresh y hy1 i hyi
    obtain ⟨s1, hrun, hinv2⟩ := ih f (p + PGSIZE) (kfree cfg id p s).state
      (Function.update L id (p :: L id)) (by omega) hal1 (by omega)
      (by rw [hnw] at hc; unfold Config.WF at hwf; unfold PGSIZE at hc hwf ⊢; omega)
      (by
        by_cases hz : n = 0
        · exact Or.inl hz
        · right
          have : p + PGSIZE + n * PGSIZE = p + (n + 1) * PGSIZE := by ring
          omega)
      (by
        have : p + PGSIZE + (n + 1) * PGSIZE = p + (n + 1 + 1) * PGSIZE := by ring
        omega)
      hinv1 hfresh1
    refine ⟨s1, ?_, ?_⟩
    · rw [freerangeLoop]
      simp only [hc, if_true]
      rw [hk]
      simp only [hnw, hrun, Option.map_some', pagesFrom_succ]
    · have hL : Function.update (Function.update L id (p :: L id)) id
          ((pagesFrom (p + PGSIZE) n).reverse ++ Function.update L id (p :: L id) id) =
          Function.update L id ((pagesFrom p (n + 1)).reverse ++ L id) := by
        rw [Function.update_idem, Function.update_same, pagesFrom_succ, List.reverse_cons,
          List.append_assoc, List.singleton_append]
      rw [← hL]
      exact hinv2

theorem PGROUNDUP_spec (a : Nat) (h : a + PGSIZE ≤ WORD) :
    PGROUNDUP a % PGSIZE = 0 ∧ a ≤ PGROUNDUP a ∧ PGROUNDUP a < a + PGSIZE := by
  unfold PGROUNDUP
  unfold PGSIZE WORD at *
  omega

theorem PGROUNDUP_aligned (a : Nat) (h : a + PGSIZE ≤ WORD) (ha : a % PGSIZE = 0) :
    PGROUNDUP a = a := by
  unfold PGROUNDUP
  unfold PGSIZE WORD at *
  omega

/-- The number of whole pages `freerange(a, b)` frees. -/
theorem wholePages_card (a b : Nat) (h : a + PGSIZE ≤ WORD) :
    (wholePages a b).card = (b - PGROUNDUP a) / PGSIZE := by
  have hP := PGROUNDUP_spec a h
  have himg : wholePages a b =
      (Finset.range ((b - PGROUNDUP a) / PGSIZE)).image (fun k => PGROUNDUP a + k * PGSIZE) := by
    ext p
    simp only [wholePages, Finset.mem_filter, Finset.mem_range, Finset.mem_image]
    constructor
    · rintro ⟨h1, h2, h3, h4⟩
      refine ⟨(p - PGROUNDUP a) / PGSIZE, ?_, ?_⟩
      · unfold PGSIZE at *; omega
      · unfold PGSIZE at *; omega
    · rintro ⟨k, hk, rfl⟩
      unfold PGSIZE at *; omega
  rw [himg, Finset.card_image_of_injective, Finset.card_range]
  intro k1 k2 hk
  unfold PGSIZE at hk
  simp only at hk
  omega

/-- The call `freerange(a, b)` on a range inside `[end, PHYSTOP]`, in a state that satisfies
the data-model invariants and has none of the pages linked: it frees the whole pages
of the range in increasing order and pushes them onto the list of the calling core. -/
theorem freerange_inv (cfg : Config) (id a b : Nat) (s : State) (L : Nat → List Nat)
    (hwf : cfg.WF) (hid : id < cfg.NCPU) (ha : cfg.kend ≤ a) (hab : a ≤ b)
    (hb : b ≤ cfg.PHYSTOP) (hinv : Inv cfg s L)
    (hfresh : ∀ y ∈ pagesFrom (PGROUNDUP a) ((b - PGROUNDUP a) / PGSIZE), ∀ i, y ∉ L i) :
    ∃ s1, freerange cfg id a b s =
        some (pagesFrom (PGROUNDUP a) ((b - PGROUNDUP a) / PGSIZE), Outcome.ok s1) ∧
      Inv cfg s1 (Function.update L id
        ((pagesFrom (PGROUNDUP a) ((b - PGROUNDUP a) / PGSIZE)).reverse ++ L id)) := by
  have hw : a + PGSIZE ≤ WORD := by
    unfold Config.WF at hwf; unfold PGSIZE at *; omega
  obtain ⟨h1, h2, h3⟩ := PGROUNDUP_spec a hw
  unfold freerange
  apply freerangeLoop_inv cfg id b hwf hid hb _ _ _ s L _ h1 (by omega) _ _ _ hinv hfresh
  · unfold Config.WF at hwf; unfold PGSIZE WORD at *; omega
  · unfold Config.WF at hwf; unfold PGSIZE WORD at *; omega
  · unfold PGSIZE at *; omega
  · unfold PGSIZE at *; omega

/-- Members of the lists after unlinking the head `r` of list `j`. -/
theorem mem_update_tail (cfg : Config) (s : State) (L : Nat → List Nat) (j r : Nat)
    (t : List Nat) (hinv : Inv cfg s L) (hl : L j = r :: t) (i y : Nat)
    (hy : y ∈ Function.update L j t i) : y ∈ L i ∧ y ≠ r := by
  have hrj : r ∈ L j := by rw [hl]; exact List.mem_cons_self _ _
  have hnd : (r :: t).Nodup := hl ▸ hinv.nodup j
  by_cases hij : i = j
  · subst hij
    simp only [Function.update_same] at hy
    refine ⟨by rw [hl]; exact List.mem_cons_of_mem _ hy, ?_⟩
    rintro rfl
    exact (List.nodup_cons.mp hnd).1 hy
  · simp only [Function.update_noteq hij] at hy
    refine ⟨hy, ?_⟩
    rintro rfl
    exact hij (hinv.disj _ _ y hy hrj)

/-- Repeated `kalloc()` on core `c` pops the list of core `c` front to back and then,
all other lists being empty, returns 0. -/
theorem kallocs_drain_local (cfg : Config) (c : Nat) (hc : c < cfg.NCPU) :
    ∀ (l : List Nat) (s : State) (L : Nat → List Nat), Inv cfg s L → L c = l →
      (∀ i, i < cfg.NCPU → i ≠ c → L i = []) →
      (kallocs cfg (List.replicate (l.length + 1) c) s).1 = l ++ [0] := by
  intro l
  induction l with
  | nil =>
    intro s L hinv hl hoth
    rcases kalloc_inv cfg c s L hc hinv with ⟨_, hk⟩ | ⟨j, r, t, hj, hlj, _, _⟩
    · simp [kallocs, hk]
    · exfalso
      by_cases hjc : j = c
      · rw [hjc, hl] at hlj; cases hlj
      · rw [hoth j hj hjc] at hlj; cases hlj
  | cons x l ih =>
    intro s L hinv hl hoth
    rcases kalloc_inv cfg c s L hc hinv with ⟨hall, _⟩ | ⟨j, r, t, hj, hlj, _, hcase, hret, _, hinv1⟩
    · rw [hall c hc] at hl; cases hl
    · have hjc : j = c := by
        rcases hcase with h | ⟨_, h, _⟩
        · exact h
        · rw [h] at hl; cases hl
      subst hjc
      rw [hl] at hlj
      injection hlj with h1 h2
      subst h1; subst h2
      have := ih (kalloc cfg j s).state (Function.update L j l) hinv1
        (by simp only [Function.update_same])
        (fun i hi hij => by rw [Function.update_noteq hij]; exact hoth i hi hij)
      rw [List.length_cons, List.replicate_succ]
      show (kalloc cfg j s).ret ::
        (kallocs cfg (List.replicate (l.length + 1) j) (kalloc cfg j s).state).1 = _
      rw [hret, this, List.cons_append]

theorem total_update (n : Nat) (L : Nat → List Nat) (j : Nat) (hj : j < n) (l : List Nat) :
    (∑ i in Finset.range n, (Function.update L j l i).length) + (L j).length =
      (∑ i in Finset.range n, (L i).length) + l.length := by
  have hmem : j ∈ Finset.range n := Finset.mem_range.mpr hj
  rw [← Finset.add_sum_erase _ _ hmem, ← Finset.add_sum_erase (Finset.range n) _ hmem]
  have hrest : ∑ i in (Finset.range n).erase j, (Function.update L j l i).length =
      ∑ i in (Finset.range n).erase j, (L i).length := by
    apply Finset.sum_congr rfl
    intro i hi
    rw [Function.update_noteq (Finset.ne_of_mem_erase hi)]
  rw [hrest, Function.update_same]
  omega

/-- Draining: in a state that satisfies the data-model invariants with `T` linked
frames in total, `kalloc()` called again and again (on any cores) returns `T` pairwise
distinct linked frames and then 0. -/
theorem kallocUntilEmpty_inv (cfg : Config) (sched : Nat → Nat)
    (hs : ∀ k, sched k < cfg.NCPU) :
    ∀ (T fuel k : Nat) (s : State) (L : Nat → List Nat), Inv cfg s L →
      (∑ i in Finset.range cfg.NCPU, (L i).length) = T → T < fuel →
      ∃ frames, kallocUntilEmpty cfg sched fuel k s = some frames ∧
        frames.length = T ∧ frames.Nodup ∧
        ∀ y ∈ frames, y ≠ 0 ∧ ∃ i, i < cfg.NCPU ∧ y ∈ L i := by
  intro T
  induction T with
  | zero =>
    intro fuel k s L hinv htot hf
    obtain ⟨f, rfl⟩ : ∃ f, fuel = f + 1 := ⟨fuel - 1, by omega⟩
    rcases kalloc_inv cfg (sched k) s L (hs k) hinv with ⟨_, hk⟩ | ⟨j, r, t, hj, hlj, _⟩
    · refine ⟨[], ?_, rfl, List.nodup_nil, fun y hy => absurd hy (List.not_mem_nil _)⟩
      simp [kallocUntilEmpty, hk]
    · exfalso
      have h0 := (Finset.sum_eq_zero_iff.mp htot) j (Finset.mem_range.mpr hj)
      rw [hlj] at h0
      simp at h0
  | succ T ih =>
    intro fuel k s L hinv htot hf
    obtain ⟨f, rfl⟩ : ∃ f, fuel = f + 1 := ⟨fuel - 1, by omega⟩
    rcases kalloc_inv cfg (sched k) s L (hs k) hinv with
      ⟨hall, _⟩ | ⟨j, r, t, hj, hlj, hr0, _, hret, _, hinv1⟩
    · exfalso
      have : (∑ i in Finset.range cfg.NCPU, (L i).length) = 0 := by
        apply Finset.sum_eq_zero
        intro i hi
        rw [hall i (Finset.mem_range.mp hi)]; rfl
      omega
    · have htot1 : (∑ i in Finset.range cfg.NCPU, (Function.update L j t i).length) = T := by
        have := total_update cfg.NCPU L j hj t
        rw [hlj, List.length_cons] at this
        omega
      obtain ⟨frames, hrun, hlen, hnd, hmem⟩ :=
        ih f (k + 1) (kalloc cfg (sched k) s).state (Function.update L j t) hinv1 htot1
          (by omega)
      refine ⟨r :: frames, ?_, by rw [List.length_cons, hlen], ?_, ?_⟩
      · rw [kallocUntilEmpty]
        simp only [hret, hr0, if_false, hrun, Option.map_some']
      · refine List.nodup_cons.mpr ⟨?_, hnd⟩
        intro hrin
        obtain ⟨_, i, _, hi⟩ := hmem r hrin
        exact (mem_update_tail cfg s L j r t hinv hlj i r hi).2 rfl
      · intro y hy
        rcases List.mem_cons.mp hy with rfl | hy
        · exact ⟨hr0, j, hj, by rw [hlj]; exact List.mem_cons_self _ _⟩
        · obtain ⟨h0, i, hi, hyi⟩ := hmem y hy
          exact ⟨h0, i, hi, (mem_update_tail cfg s L j r t hinv hlj i y hyi).1⟩

theorem mem_wholePages_iff (a b y : Nat) (h : a + PGSIZE ≤ WORD) :
    y ∈ wholePages a b ↔ y ∈ pagesFrom (PGROUNDUP a) ((b - PGROUNDUP a) / PGSIZE) := by
  have hP := PGROUNDUP_spec a h
  rw [mem_pagesFrom]
  simp only [wholePages, Finset.mem_filter, Finset.mem_range]
  constructor
  · rintro ⟨h1, h2, h3, h4⟩
    refine ⟨(y - PGROUNDUP a) / PGSIZE, ?_, ?_⟩
    · unfold PGSIZE at *; omega
    · unfold PGSIZE at *; omega
  · rintro ⟨k, hk, rfl⟩
    unfold PGSIZE at *; omega

theorem mem_wholePages_bounds (a b y : Nat) (hy : y ∈ wholePages a b) :
    a ≤ y ∧ y + PGSIZE ≤ b := by
  unfold wholePages at hy
  simp only [Finset.mem_filter, Finset.mem_range] at hy
  exact ⟨hy.2.2.1, hy.2.2.2⟩

theorem freeranges_cons_ok (cfg : Config) (c a b : Nat) (rs : List (Nat × Nat × Nat))
    (s s1 : State) (ps : List Nat) (h : freerange cfg c a b s = some (ps, Outcome.ok s1)) :
    freeranges cfg ((c, a, b) :: rs) s = freeranges cfg rs s1 := by
  rw [freeranges]
  simp only [h, Option.some_bind, Outcome.returned]

/-- A sequence of `freerange` calls over pairwise disjoint ranges inside `[end, PHYSTOP]`
that contain no linked frame: every call returns, the data-model invariants hold
afterwards, the number of linked frames has grown by the number of whole pages of the
ranges, and every linked frame was linked before or is a whole page of a range. -/
theorem freeranges_inv (cfg : Config) (hwf : cfg.WF) :
    ∀ (ranges : List (Nat × Nat × Nat)) (s : State) (L : Nat → List Nat), Inv cfg s L →
      (∀ r ∈ ranges, r.1 < cfg.NCPU ∧ cfg.kend ≤ r.2.1 ∧ r.2.1 ≤ r.2.2 ∧
        r.2.2 ≤ cfg.PHYSTOP) →
      ranges.Pairwise (fun r1 r2 => r1.2.2 ≤ r2.2.1 ∨ r2.2.2 ≤ r1.2.1) →
      (∀ i y, y ∈ L i → ∀ r ∈ ranges, y + PGSIZE ≤ r.2.1 ∨ r.2.2 ≤ y) →
      ∃ s1 L1, freeranges cfg ranges s = some s1 ∧ Inv cfg s1 L1 ∧
        (∑ i in Finset.range cfg.NCPU, (L1 i).length) =
          (∑ i in Finset.range cfg.NCPU, (L i).length) +
            (ranges.map (fun r => (wholePages r.2.1 r.2.2).card)).sum ∧
        (∀ i y, y ∈ L1 i → y ∈ L i ∨ ∃ r ∈ ranges, y ∈ wholePages r.2.1 r.2.2) := by
  intro ranges
  induction ranges with
  | nil =>
    intro s L hinv _ _ _
    exact ⟨s, L, rfl, hinv, by simp, fun i y hy => Or.inl hy⟩
  | cons r rs ih =>
    intro s L hinv hok hpair hout
    obtain ⟨c, a, b⟩ := r
    have hokr := hok (c, a, b) (List.mem_cons_self _ _)
    simp only at hokr
    obtain ⟨hc, ha, hab, hb⟩ := hokr
    have hw : a + PGSIZE ≤ WORD := by
      unfold Config.WF at hwf; unfold PGSIZE at hwf ⊢; omega
    have hfresh : ∀ y ∈ pagesFrom (PGROUNDUP a) ((b - PGROUNDUP a) / PGSIZE),
        ∀ i, y ∉ L i := by
      intro y hy i hyi
      have hbd := mem_wholePages_bounds a b y ((mem_wholePages_iff a b y hw).mpr hy)
      have := hout i y hyi (c, a, b) (List.mem_cons_self _ _)
      simp only at this
      unfold PGSIZE at hbd this; omega
    obtain ⟨s1, hrun, hinv1⟩ := freerange_inv cfg c a b s L hwf hc ha hab hb hinv hfresh
    have hpair1 := List.pairwise_cons.mp hpair
    have hmem1 : ∀ i y, y ∈ Function.update L c
        ((pagesFrom (PGROUNDUP a) ((b - PGROUNDUP a) / PGSIZE)).reverse ++ L c) i →
        y ∈ L i ∨ y ∈ wholePages a b := by
      intro i y hy
      by_cases hic : i = c
      · subst hic
        simp only [Function.update_same, List.mem_append, List.mem_reverse] at hy
        rcases hy with hy | hy
        · exact Or.inr ((mem_wholePages_iff a b y hw).mpr hy)
        · exact Or.inl hy
      · simp only [Function.update_noteq hic] at hy
        exact Or.inl hy
    obtain ⟨s2, L2, hrun2, hinv2, htot2, hmem2⟩ := ih s1 _ hinv1
      (fun r hr => hok r (List.mem_cons_of_mem _ hr)) hpair1.2
      (by
        intro i y hy r hr
        rcases hmem1 i y hy with h | h
        · exact hout i y h r (List.mem_cons_of_mem _ hr)
        · have hbd := mem_wholePages_bounds a b y h
          have := hpair1.1 r hr
          simp only at this
          omega)
    refine ⟨s2, L2, ?_, hinv2, ?_, ?_⟩
    · rw [freeranges_cons_ok cfg c a b rs s s1 _ hrun]
      exact hrun2
    · rw [htot2]
      have := total_update cfg.NCPU L c hc
        ((pagesFrom (PGROUNDUP a) ((b - PGROUNDUP a) / PGSIZE)).reverse ++ L c)
      rw [List.length_append, List.length_reverse, length_pagesFrom] at this
      rw [List.map_cons, List.sum_cons, wholePages_card a b hw]
      omega
    · intro i y hy
      rcases hmem2 i y hy with h | ⟨r, hr, h⟩
      · rcases hmem1 i y h with h1 | h1
        · exact Or.inl h1
        · exact Or.inr ⟨(c, a, b), List.mem_cons_self _ _, h1⟩
      · exact Or.inr ⟨r, List.mem_cons_of_mem _ hr, h⟩

theorem EvRun_append (cfg : Config) (l1 l2 : List Event) :
    ∀ (s s2 : State), EvRun cfg s (l1 ++ l2) s2 ↔ ∃ s1, EvRun cfg s l1 s1 ∧ EvRun cfg s1 l2 s2 := by
  induction l1 with
  | nil =>
    intro s s2
    constructor
    · intro h; exact ⟨s, rfl, h⟩
    · rintro ⟨s1, h1, h2⟩
      have : s1 = s := h1
      subst this; exact h2
  | cons e es ih =>
    intro s s2
    constructor
    · rintro ⟨s3, hstep, hrun⟩
      obtain ⟨s1, h1, h2⟩ := (ih s3 s2).mp hrun
      exact ⟨s1, ⟨s3, hstep, h1⟩, h2⟩
    · rintro ⟨s1, ⟨s3, hstep, h1⟩, h2⟩
      exact ⟨s3, hstep, (ih s3 s2).mpr ⟨s1, h1, h2⟩⟩

/-- A returning run of the loop of `freerange` is a run of `kfree` calls. -/
theorem freerangeLoop_EvRun (cfg : Config) (id pa_end : Nat) (hid : id < cfg.NCPU) :
    ∀ (fuel p : Nat) (s s1 : State) (ps : List Nat),
      freerangeLoop cfg id pa_end fuel p s = some (ps, Outcome.ok s1) →
      EvRun cfg s (ps.map Event.freed) s1 := by
  intro fuel
  induction fuel with
  | zero =>
    intro p s s1 ps h
    rw [freerangeLoop] at h
    cases h
  | succ f ih =>
    intro p s s1 ps h
    rw [freerangeLoop] at h
    by_cases hc : (p + PGSIZE) % WORD ≤ pa_end
    · simp only [hc, if_true] at h
      by_cases hv : kfreeOk cfg p
      · rw [kfree_ok cfg id p s hv] at h
        simp only at h
        cases hr : freerangeLoop cfg id pa_end f ((p + PGSIZE) % WORD)
            { mem := store64 (memset s.mem p 1 PGSIZE) p (s.freelist id),
              freelist := Function.update s.freelist id p } with
        | none => rw [hr] at h; cases h
        | some r =>
          rw [hr] at h
          simp only [Option.map_some', Option.some.injEq, Prod.mk.injEq] at h
          obtain ⟨h1, h2⟩ := h
          obtain ⟨r1, r2⟩ := r
          simp only at h1 h2
          subst h1; subst h2
          exact ⟨_, ⟨id, hid, kfree_ok cfg id p s hv⟩, ih _ _ _ _ hr⟩
      · rw [kfree_panic cfg id p s hv] at h
        simp only [Option.some.injEq, Prod.mk.injEq] at h
        exact absurd h.2 (by simp)
    · simp only [hc, if_false, Option.some.injEq, Prod.mk.injEq] at h
      obtain ⟨h1, h2⟩ := h
      injection h2 with h2
      subst h1; subst h2
      exact rfl

theorem step_EvRun (cfg : Config) (c : Call) (s s1 : State) (ev : List Event)
    (hc : c.core < cfg.NCPU) (h : step cfg c s = some (ev, s1)) : EvRun cfg s ev s1 := by
  cases c with
  | kfree id pa =>
    simp only [step] at h
    by_cases hv : kfreeOk cfg pa
    · rw [kfree_ok cfg id pa s hv] at h
      simp only [logFreed, Option.some.injEq, Prod.mk.injEq] at h
      obtain ⟨h1, h2⟩ := h
      subst h1; subst h2
      exact ⟨_, ⟨id, hc, kfree_ok cfg id pa s hv⟩, rfl⟩
    · rw [kfree_panic cfg id pa s hv] at h
      simp only [logFreed] at h
      cases h
  | kalloc id =>
    simp only [step, Option.some.injEq, Prod.mk.injEq] at h
    obtain ⟨h1, h2⟩ := h
    subst h1; subst h2
    exact ⟨_, ⟨id, hc, rfl, rfl⟩, rfl⟩
  | freerange id a b =>
    simp only [step] at h
    cases hr : freerange cfg id a b s with
    | none => rw [hr] at h; cases h
    | some r =>
      rw [hr] at h
      obtain ⟨ps, o⟩ := r
      simp only [Option.some_bind] at h
      cases o with
      | panic s2 => simp only [logFreed] at h; cases h
      | ok s2 =>
        simp only [logFreed, Option.some.injEq, Prod.mk.injEq] at h
        obtain ⟨h1, h2⟩ := h
        subst h1; subst h2
        exact freerangeLoop_EvRun cfg id b hc _ _ s s2 ps hr

/-- A run of calls that does not panic is a run of `kfree` and `kalloc` events. -/
theorem exec_EvRun (cfg : Config) :
    ∀ (calls : List Call) (s s1 : State) (log : List Event),
      (∀ c ∈ calls, c.core < cfg.NCPU) → exec cfg calls s = some (log, s1) →
      EvRun cfg s log s1 := by
  intro calls
  induction calls with
  | nil =>
    intro s s1 log _ h
    simp only [exec, Option.some.injEq, Prod.mk.injEq] at h
    obtain ⟨h1, h2⟩ := h
    subst h1; subst h2
    exact rfl
  | cons c cs ih =>
    intro s s1 log hcore h
    rw [exec] at h
    cases hs : step cfg c s with
    | none => rw [hs] at h; cases h
    | some r1 =>
      rw [hs] at h
      simp only [Option.some_bind] at h
      cases he : exec cfg cs r1.2 with
      | none => rw [he] at h; cases h
      | some r2 =>
        rw [he] at h
        simp only [Option.map_some', Option.some.injEq, Prod.mk.injEq] at h
        obtain ⟨h1, h2⟩ := h
        subst h1; subst h2
        exact (EvRun_append cfg r1.1 r2.1 s r2.2).mpr
          ⟨r1.2, step_EvRun cfg c s r1.2 r1.1 (hcore c (List.mem_cons_self _ _)) hs,
            ih r1.2 r2.2 r2.1 (fun c1 hc1 => hcore c1 (List.mem_cons_of_mem _ hc1)) he⟩

theorem freeAfter_snoc (x : Nat) (log : List Event) (e : Event) :
    freeAfter x (log ++ [e]) =
      match e with
      | Event.freed y => if y = x then true else freeAfter x log
      | Event.alloc y => if y = x then false else freeAfter x log := by
  unfold freeAfter
  rw [List.foldl_append]
  cases e <;> rfl

/-- When `x` is free at the end of the log, the log contains a `freed x` with no
`alloc x` after it. -/
theorem freeAfter_decomp (x : Nat) (log : List Event) :
    freeAfter x log = true →
      ∃ a b, log = a ++ Event.freed x :: b ∧ Event.alloc x ∉ b := by
  induction log using List.reverseRecOn with
  | nil => intro h; cases h
  | append_singleton l e ih =>
    intro h
    rw [freeAfter_snoc] at h
    cases e with
    | freed y =>
      by_cases hy : y = x
      · subst hy
        exact ⟨l, [], rfl, List.not_mem_nil _⟩
      · simp only [hy, if_false] at h
        obtain ⟨a, b, hl, hb⟩ := ih h
        refine ⟨a, b ++ [Event.freed y], by rw [hl]; simp, ?_⟩
        intro hm
        rcases List.mem_append.mp hm with h1 | h1
        · exact hb h1
        · simp at h1
    | alloc y =>
      by_cases hy : y = x
      · simp [hy] at h
      · simp only [hy, if_false] at h
        obtain ⟨a, b, hl, hb⟩ := ih h
        refine ⟨a, b ++ [Event.alloc y], by rw [hl]; simp, ?_⟩
        intro hm
        rcases List.mem_append.mp hm with h1 | h1
        · exact hb h1
        · simp at h1
          exact hy h1.symm

theorem NoDoubleFree_of_append (p q : List Event) (h : NoDoubleFree (p ++ q)) : NoDoubleFree p := by
  intro a b c x hl
  exact h a b (c ++ q) x (by rw [hl]; simp)

/-- Along a run without double free that starts with all lists empty, the data-model
invariants hold and every linked frame is free according to the log. -/
theorem run_inv (cfg : Config) (hwf : cfg.WF) (s0 : State)
    (hempty : ∀ i, i < cfg.NCPU → s0.freelist i = 0) :
    ∀ (log : List Event) (s1 : State), EvRun cfg s0 log s1 → NoDoubleFree log →
      ∃ L, Inv cfg s1 L ∧ ∀ i x, x ∈ L i → freeAfter x log = true := by
  intro log
  induction log using List.reverseRecOn with
  | nil =>
    intro s1 hrun _
    have : s1 = s0 := hrun
    subst this
    exact ⟨fun _ => [], inv_empty cfg s1 hempty, fun _ _ hx => absurd hx (List.not_mem_nil _)⟩
  | append_singleton l e ih =>
    intro s1 hrun hndf
    obtain ⟨sp, hrunp, hlast⟩ := (EvRun_append cfg l [e] s0 s1).mp hrun
    obtain ⟨s2, hstep, hs2⟩ := hlast
    have hs : s1 = s2 := hs2
    subst hs
    obtain ⟨L, hinv, hfree⟩ := ih sp hrunp (NoDoubleFree_of_append l [e] hndf)
    cases e with
    | freed x =>
      obtain ⟨id, hid, hk⟩ := hstep
      have hx : kfreeOk cfg x := by
        by_contra hv
        rw [kfree_panic cfg id x sp hv] at hk
        cases hk
      have hfresh : ∀ i, x ∉ L i := by
        intro i hxi
        obtain ⟨a, b, hl, hb⟩ := freeAfter_decomp x l (hfree i x hxi)
        exact hb (hndf a b [] x (by rw [hl]))
      obtain ⟨hok, hinv1⟩ := kfree_inv cfg id x sp L hwf hid hx hinv hfresh
      have hst : (kfree cfg id x sp).state = s1 := by rw [hk]; rfl
      rw [hst] at hinv1
      refine ⟨_, hinv1, ?_⟩
      intro i y hy
      rw [freeAfter_snoc]
      by_cases hxy : x = y
      · simp [hxy]
      · simp only [hxy, if_false]
        by_cases hii : i = id
        · subst hii
          simp only [Function.update_same, List.mem_cons] at hy
          rcases hy with h | h
          · exact absurd h.symm hxy
          · exact hfree i y h
        · simp only [Function.update_noteq hii] at hy
          exact hfree i y hy
    | alloc r =>
      obtain ⟨id, hid, hret, hst⟩ := hstep
      rcases kalloc_inv cfg id sp L hid hinv with ⟨_, hk⟩ | ⟨j, r1, t, hj, hlj, hr0, _, hret1, _, hinv1⟩
      · rw [hk] at hret hst
        simp only at hret hst
        subst hst
        refine ⟨L, hinv, ?_⟩
        intro i y hy
        rw [freeAfter_snoc]
        have hy0 : y ≠ 0 := by
          have := hinv.valid i y hy
          unfold Config.WF at hwf; unfold kfreeOk at this; omega
        have : r ≠ y := by rw [← hret]; exact fun h => hy0 h.symm
        simp only [this, if_false]
        exact hfree i y hy
      · rw [hst] at hinv1
        refine ⟨_, hinv1, ?_⟩
        intro i y hy
        obtain ⟨hyi, hyr⟩ := mem_update_tail cfg sp L j r1 t hinv hlj i y hy
        rw [freeAfter_snoc]
        have : r ≠ y := by rw [← hret, hret1]; exact fun h => hyr h.symm
        simp only [this, if_false]
        exact hfree i y hyi

theorem freed_between (a b a1 b1 : List Event) (x : Nat)
    (h : a ++ Event.alloc x :: b = a1 ++ Event.freed x :: b1)
    (hb1 : Event.alloc x ∉ b1) : Event.freed x ∈ b := by
  rcases List.append_eq_append_iff.mp h with ⟨c, h1, h2⟩ | ⟨c, h1, h2⟩
  · cases c with
    | nil =>
      simp only [List.nil_append] at h2
      injection h2 with h3 _
      cases h3
    | cons e c1 =>
      simp only [List.cons_append] at h2
      injection h2 with _ h4
      rw [h4]
      exact List.mem_append_right _ (List.mem_cons_self _ _)
  · cases c with
    | nil =>
      simp only [List.nil_append] at h2
      injection h2 with h3 _
      cases h3
    | cons e c1 =>
      simp only [List.cons_append] at h2
      injection h2 with _ h4
      exfalso
      apply hb1
      rw [h4]
      exact List.mem_append_right _ (List.mem_cons_self _ _)

/-- A log in which every address is freed at most once has no double free. -/
theorem noDoubleFree_of_nodup (log : List Event)
    (h : (log.filterMap Event.freedAddr).Nodup) : NoDoubleFree log := by
  intro a b c x hl
  exfalso
  rw [hl] at h
  simp only [List.filterMap_append, List.filterMap_cons, Event.freedAddr] at h
  have h1 := (List.nodup_append.mp h).2.2
  exact h1 (List.mem_append_right _ (List.mem_cons_self _ _)) (List.mem_cons_self _ _)

theorem alloc_after_freed (x : Nat) (a b : List Event) :
    freeAfter x (a ++ Event.freed x :: b) = false → Event.alloc x ∈ b := by
  induction b using List.reverseRecOn with
  | nil =>
    intro h
    rw [freeAfter_snoc] at h
    simp at h
  | append_singleton l e ih =>
    intro h
    have hassoc : a ++ Event.freed x :: (l ++ [e]) = (a ++ Event.freed x :: l) ++ [e] := by simp
    rw [hassoc, freeAfter_snoc] at h
    cases e with
    | freed y =>
      by_cases hy : y = x
      · simp [hy] at h
      · simp only [hy, if_false] at h
        exact List.mem_append_left _ (ih h)
    | alloc y =>
      by_cases hy : y = x
      · subst hy; exact List.mem_append_right _ (List.mem_singleton_self _)
      · simp only [hy, if_false] at h
        exact List.mem_append_left _ (ih h)

theorem ndfFrom_reaches (x : Nat) (b c : List Event) :
    ∀ pre, ndfFrom pre (b ++ Event.freed x :: c) = true → freeAfter x (pre ++ b) = false := by
  induction b with
  | nil =>
    intro pre h
    simp only [List.nil_append, ndfFrom, Bool.and_eq_true, Bool.not_eq_true'] at h
    simpa using h.1
  | cons e b ih =>
    intro pre h
    have hassoc : pre ++ e :: b = (pre ++ [e]) ++ b := by simp
    rw [hassoc]
    cases e with
    | freed y =>
      simp only [List.cons_append, ndfFrom, Bool.and_eq_true] at h
      exact ih _ h.2
    | alloc y =>
      simp only [List.cons_append, ndfFrom] at h
      exact ih _ h

/-- The checker is sound: a log it accepts has no double free. -/
theorem noDoubleFree_of_ndfFrom (log : List Event) :
    ∀ pre, ndfFrom pre log = true →
      ∀ (a b c : List Event) (x : Nat),
        log = a ++ Event.freed x :: b ++ Event.freed x :: c → Event.alloc x ∈ b := by
  induction log with
  | nil =>
    intro pre _ a b c x h
    have := congrArg List.length h
    simp at this
    omega
  | cons e l ih =>
    intro pre hchk a b c x h
    cases a with
    | nil =>
      simp only [List.nil_append, List.cons_append, List.cons.injEq] at h
      obtain ⟨he, hl⟩ := h
      subst he
      simp only [ndfFrom, Bool.and_eq_true] at hchk
      rw [hl] at hchk
      have := ndfFrom_reaches x b c _ hchk.2
      rw [List.append_assoc] at this
      exact alloc_after_freed x pre b this
    | cons e1 a1 =>
      simp only [List.cons_append, List.cons.injEq] at h
      obtain ⟨_, hl⟩ := h
      have hrest : ndfFrom (pre ++ [e]) l = true := by
        cases e with
        | freed y => simp only [ndfFrom, Bool.and_eq_true] at hchk; exact hchk.2
        | alloc y => simp only [ndfFrom] at hchk; exact hchk
      exact ih _ hrest a1 b c x hl

theorem noDoubleFree_of_check (log : List Event) (h : ndfFrom [] log = true) :
    NoDoubleFree log :=
  noDoubleFree_of_ndfFrom log [] h

/-- Conservation along a run of atomic `kalloc`/`kfree` steps in which only outstanding
frames are freed: the data-model invariants are kept and the number of linked frames
plus the number of outstanding frames does not change. -/
theorem conservation_run (cfg : Config) (hwf : cfg.WF) :
    ∀ (log : List Event) (s0 s1 : State) (L0 : Nat → List Nat) (O : List Nat),
      Inv cfg s0 L0 → O.Nodup → (∀ x ∈ O, kfreeOk cfg x ∧ ∀ i, x ∉ L0 i) →
      EvRun cfg s0 log s1 → FreesOutstanding O log →
      ∃ L1, Inv cfg s1 L1 ∧
        (∑ i in Finset.range cfg.NCPU, (L1 i).length) + (outstanding O log).length =
          (∑ i in Finset.range cfg.NCPU, (L0 i).length) + O.length := by
  intro log
  induction log with
  | nil =>
    intro s0 s1 L0 O hinv _ _ hrun _
    have : s1 = s0 := hrun
    subst this
    exact ⟨L0, hinv, rfl⟩
  | cons e l ih =>
    intro s0 s1 L0 O hinv hnd hO hrun hlegal
    obtain ⟨s2, hstep, hrest⟩ := hrun
    cases e with
    | alloc r =>
      obtain ⟨id, hid, hret, hst⟩ := hstep
      simp only [FreesOutstanding] at hlegal
      simp only [outstanding]
      rcases kalloc_inv cfg id s0 L0 hid hinv with
        ⟨_, hk⟩ | ⟨j, r1, t, hj, hlj, hr0, _, hret1, _, hinv1⟩
      · rw [hk] at hret hst
        simp only at hret hst
        subst hst
        have hr : r = 0 := hret.symm
        simp only [hr, if_true] at hlegal ⊢
        exact ih s0 s1 L0 O hinv hnd hO hrest hlegal
      · have hr : r = r1 := hret.symm.trans hret1
        subst hr
        rw [hst] at hinv1
        simp only [hr0, if_false] at hlegal ⊢
        have hrj : r ∈ L0 j := by rw [hlj]; exact List.mem_cons_self _ _
        have hnd1 : (r :: O).Nodup :=
          List.nodup_cons.mpr ⟨fun h => (hO r h).2 j hrj, hnd⟩
        have hO1 : ∀ x ∈ r :: O, kfreeOk cfg x ∧ ∀ i, x ∉ Function.update L0 j t i := by
          intro x hx
          rcases List.mem_cons.mp hx with rfl | hx
          · exact ⟨hinv.valid j x hrj,
              fun i hi => (mem_update_tail cfg s0 L0 j x t hinv hlj i x hi).2 rfl⟩
          · exact ⟨(hO x hx).1,
              fun i hi => (hO x hx).2 i (mem_update_tail cfg s0 L0 j r t hinv hlj i x hi).1⟩
        obtain ⟨L1, hinvf, hsum⟩ := ih s2 s1 _ (r :: O) hinv1 hnd1 hO1 hrest hlegal
        refine ⟨L1, hinvf, ?_⟩
        have hupd := total_update cfg.NCPU L0 j hj t
        rw [hlj, List.length_cons] at hupd
        rw [hsum, List.length_cons]
        omega
    | freed x =>
      obtain ⟨id, hid, hk⟩ := hstep
      simp only [FreesOutstanding] at hlegal
      simp only [outstanding]
      obtain ⟨hxO, hlegal1⟩ := hlegal
      obtain ⟨hxv, hxfresh⟩ := hO x hxO
      obtain ⟨_, hinv1⟩ := kfree_inv cfg id x s0 L0 hwf hid hxv hinv hxfresh
      have hst : (kfree cfg id x s0).state = s2 := by rw [hk]; rfl
      rw [hst] at hinv1
      have hnd1 : (O.erase x).Nodup := hnd.erase x
      have hO1 : ∀ y ∈ O.erase x,
          kfreeOk cfg y ∧ ∀ i, y ∉ Function.update L0 id (x :: L0 id) i := by
        intro y hy
        have hyO : y ∈ O := List.mem_of_mem_erase hy
        have hyx : y ≠ x := fun h => by
          rw [h] at hy
          exact (List.Nodup.not_mem_erase hnd) hy
        refine ⟨(hO y hyO).1, ?_⟩
        intro i hi
        by_cases hii : i = id
        · subst hii
          simp only [Function.update_same, List.mem_cons] at hi
          rcases hi with h | h
          · exact hyx h
          · exact (hO y hyO).2 i h
        · simp only [Function.update_noteq hii] at hi
          exact (hO y hyO).2 i hi
      obtain ⟨L1, hinvf, hsum⟩ := ih s2 s1 _ (O.erase x) hinv1 hnd1 hO1 hrest hlegal1
      refine ⟨L1, hinvf, ?_⟩
      have hupd := total_update cfg.NCPU L0 id hid (x :: L0 id)
      rw [List.length_cons] at hupd
      have hlen := List.length_erase_of_mem hxO
      have hpos : 0 < O.length := List.length_pos_of_mem hxO
      rw [hsum, hlen]
      omega

theorem initlocks_spec (n : Nat) (locks : Nat → Spinlock) :
    ∀ i, (i < n → initlocks n locks i = { inited := true, locked := false }) ∧
      (n ≤ i → initlocks n locks i = locks i) := by
  induction n with
  | zero => intro i; exact ⟨fun h => absurd h (Nat.not_lt_zero _), fun _ => rfl⟩
  | succ n ih =>
    intro i
    constructor
    · intro hi
      by_cases hin : i = n
      · subst hin
        simp only [initlocks, Function.update_same, initlock]
      · simp only [initlocks, Function.update_noteq hin]
        exact (ih i).1 (by omega)
    · intro hi
      have hin : i ≠ n := by omega
      simp only [initlocks, Function.update_noteq hin]
      exact (ih i).2 (by omega)

theorem kfreeLocks_unlocked (id : Nat) :
    ∀ (k : Nat) (locks : Nat → Spinlock), (locks id).locked = false →
      ∃ lk, kfreeLocks id k locks = some lk ∧ ∀ i, lk i = locks i := by
  intro k
  induction k with
  | zero => intro locks _; exact ⟨locks, rfl, fun _ => rfl⟩
  | succ k ih =>
    intro locks h
    have hacq : acquire (locks id) = some { locks id with locked := true } := by
      simp [acquire, h]
    have hupd : Function.update locks id (release { locks id with locked := true }) = locks := by
      funext i
      by_cases hi : i = id
      · subst hi
        simp only [Function.update_same, release]
        cases hl : locks i with
        | mk a b =>
          rw [hl] at h
          simp only at h
          simp [h]
      · simp only [Function.update_noteq hi]
    obtain ⟨lk, h1, h2⟩ := ih locks h
    refine ⟨lk, ?_, h2⟩
    simp only [kfreeLocks, hacq, Option.some_bind, hupd, h1]

/-- The loop of `freerange`, started at an aligned `p ≥ end` with no wrap-around,
returns after freeing the `n` whole pages below `pa_end ≤ PHYSTOP`, each of which
passes the validation of `kfree`; the state plays no role. -/
theorem freerangeLoop_valid (cfg : Config) (id pa_end : Nat) (hend : pa_end ≤ cfg.PHYSTOP)
    (hw : pa_end + PGSIZE < WORD) :
    ∀ (n fuel p : Nat) (s : State), n < fuel → p % PGSIZE = 0 →
      cfg.kend ≤ p → p + PGSIZE < WORD → (n = 0 ∨ p + n * PGSIZE ≤ pa_end) →
      pa_end < p + (n + 1) * PGSIZE →
      ∃ s1, freerangeLoop cfg id pa_end fuel p s = some (pagesFrom p n, Outcome.ok s1) ∧
        ∀ y ∈ pagesFrom p n, kfreeOk cfg y := by
  intro n
  induction n with
  | zero =>
    intro fuel p s hf _ _ hp _ hhi
    obtain ⟨f, rfl⟩ : ∃ f, fuel = f + 1 := ⟨fuel - 1, by omega⟩
    have hnw : (p + PGSIZE) % WORD = p + PGSIZE := Nat.mod_eq_of_lt hp
    have hc : ¬ ((p + PGSIZE) % WORD ≤ pa_end) := by rw [hnw]; omega
    refine ⟨s, ?_, fun y hy => absurd hy (List.not_mem_nil _)⟩
    simp only [freerangeLoop, hc, if_false, pagesFrom_zero]
  | succ n ih =>
    intro fuel p s hf hal hlo hp hn hhi
    obtain ⟨f, rfl⟩ : ∃ f, fuel = f + 1 := ⟨fuel - 1, by omega⟩
    have hn1 : p + (n + 1) * PGSIZE ≤ pa_end := by
      rcases hn with h | h
      · omega
      · exact h
    have hnw : (p + PGSIZE) % WORD = p + PGSIZE := Nat.mod_eq_of_lt hp
    have hle : p + PGSIZE ≤ pa_end := by
      have : PGSIZE ≤ (n + 1) * PGSIZE := Nat.le_mul_of_pos_left _ (by omega)
      omega
    have hc : (p + PGSIZE) % WORD ≤ pa_end := by rw [hnw]; exact hle
    have hpv : kfreeOk cfg p := by
      refine ⟨hal, hlo, ?_⟩
      unfold PGSIZE at hle; omega
    have hal1 : (p + PGSIZE) % PGSIZE = 0 := by unfold PGSIZE at hal ⊢; omega
    obtain ⟨s1, hrun, hval⟩ := ih f (p + PGSIZE) (kfree cfg id p s).state (by omega) hal1
      (by omega) (by omega)
      (by
        by_cases hz : n = 0
        · exact Or.inl hz
        · right
          have : p + PGSIZE + n * PGSIZE = p + (n + 1) * PGSIZE := by ring
          omega)
      (by
        have : p + PGSIZE + (n + 1) * PGSIZE = p + (n + 1 + 1) * PGSIZE := by ring
        omega)
    refine ⟨s1, ?_, ?_⟩
    · rw [freerangeLoop]
      simp only [hc, if_true]
      rw [kfree_ok cfg id p s hpv]
      rw [kfree_ok cfg id p s hpv] at hrun
      simp only [Outcome.state] at hrun
      simp only [hnw, hrun, Option.map_some', pagesFrom_succ]
    · intro y hy
      rw [pagesFrom_succ] at hy
      rcases List.mem_cons.mp hy with rfl | hy
      · exact hpv
      · exact hval y hy

/-- What `kinit` does on core `id` from a state with all lists empty: every lock ends
up initialised and not held, and the whole pages of `[end, PHYSTOP)` are pushed onto the
list of core `id`, the last page first; every other list stays empty. -/
theorem kinit_spec (cfg : Config) (id : Nat) (locks : Nat → Spinlock) (s : State)
    (hwf : cfg.WF) (hid : id < cfg.NCPU) (hle : cfg.kend ≤ cfg.PHYSTOP)
    (hempty : ∀ i, i < cfg.NCPU → s.freelist i = 0) :
    ∃ lk s1,
      kinit cfg id locks s = some (KinitResult.mk lk
        (pagesFrom (PGROUNDUP cfg.kend) ((cfg.PHYSTOP - PGROUNDUP cfg.kend) / PGSIZE))
        (Outcome.ok s1)) ∧
      (∀ i, i < cfg.NCPU → (lk i).inited = true ∧ (lk i).locked = false) ∧
      Inv cfg s1 (Function.update (fun _ => []) id
        (pagesFrom (PGROUNDUP cfg.kend)
          ((cfg.PHYSTOP - PGROUNDUP cfg.kend) / PGSIZE)).reverse) := by
  obtain ⟨s1, hrun, hinv⟩ := freerange_inv cfg id cfg.kend cfg.PHYSTOP s (fun _ => []) hwf hid
    (Nat.le_refl _) hle (Nat.le_refl _) (inv_empty cfg s hempty)
    (fun _ _ _ => List.not_mem_nil _)
  rw [List.append_nil] at hinv
  have hunl : (initlocks cfg.NCPU locks id).locked = false := by
    rw [(initlocks_spec cfg.NCPU locks id).1 hid]
  obtain ⟨lk, hlk, hsame⟩ := kfreeLocks_unlocked id
    (pagesFrom (PGROUNDUP cfg.kend) ((cfg.PHYSTOP - PGROUNDUP cfg.kend) / PGSIZE)).length
    (initlocks cfg.NCPU locks) hunl
  refine ⟨lk, s1, ?_, ?_, hinv⟩
  · unfold kinit
    rw [hrun]
    simp only [Option.some_bind, hlk, Option.map_some']
  · intro i hi
    rw [hsame i, (initlocks_spec cfg.NCPU locks i).1 hi]
    exact ⟨rfl, rfl⟩

/-- The loop of `freerange` over `n` pages that all pass validation and are not linked:
it returns after freeing them in increasing order and pushes them onto the list of the
calling core. -/
theorem freerangeLoop_push (cfg : Config) (id pa_end : Nat) (hwf : cfg.WF)
    (hid : id < cfg.NCPU) :
    ∀ (n fuel p : Nat) (s : State) (L : Nat → List Nat), n < fuel →
      p + PGSIZE < WORD → (n = 0 ∨ p + n * PGSIZE ≤ pa_end) →
      pa_end < p + (n + 1) * PGSIZE → Inv cfg s L →
      (∀ y ∈ pagesFrom p n, kfreeOk cfg y ∧ ∀ i, y ∉ L i) →
      ∃ s1, freerangeLoop cfg id pa_end fuel p s = some (pagesFrom p n, Outcome.ok s1) ∧
        Inv cfg s1 (Function.update L id ((pagesFrom p n).reverse ++ L id)) := by
  intro n
  induction n with
  | zero =>
    intro fuel p s L hf hp _ hhi hinv _
    obtain ⟨f, rfl⟩ : ∃ f, fuel = f + 1 := ⟨fuel - 1, by omega⟩
    have hnw : (p + PGSIZE) % WORD = p + PGSIZE := Nat.mod_eq_of_lt hp
    have hc : ¬ ((p + PGSIZE) % WORD ≤ pa_end) := by rw [hnw]; omega
    refine ⟨s, ?_, ?_⟩
    · simp only [freerangeLoop, hc, if_false, pagesFrom_zero]
    · simp only [pagesFrom_zero, List.reverse_nil, List.nil_append, Function.update_eq_self]
      exact hinv
  | succ n ih =>
    intro fuel p s L hf hp hn hhi hinv hpages
    obtain ⟨f, rfl⟩ : ∃ f, fuel = f + 1 := ⟨fuel - 1, by omega⟩
    have hn1 : p + (n + 1) * PGSIZE ≤ pa_end := by
      rcases hn with h | h
      · omega
      · exact h
    have hnw : (p + PGSIZE) % WORD = p + PGSIZE := Nat.mod_eq_of_lt hp
    have hc : (p + PGSIZE) % WORD ≤ pa_end := by
      rw [hnw]
      have : PGSIZE ≤ (n + 1) * PGSIZE := Nat.le_mul_of_pos_left _ (by omega)
      omega
    have hp0 : p ∈ pagesFrom p (n + 1) := (mem_pagesFrom p (n + 1) p).mpr ⟨0, by omega, by simp⟩
    obtain ⟨hpv, hpf⟩ := hpages p hp0
    obtain ⟨hk, hinv1⟩ := kfree_inv cfg id p s L hwf hid hpv hinv hpf
    have hpages1 : ∀ y ∈ pagesFrom (p + PGSIZE) n,
        kfreeOk cfg y ∧ ∀ i, y ∉ Function.update L id (p :: L id) i := by
      intro y hy
      have hy1 : y ∈ pagesFrom p (n + 1) := by
        rw [pagesFrom_succ]; exact List.mem_cons_of_mem _ hy
      obtain ⟨k, _, hyk⟩ := (mem_pagesFrom _ _ _).mp hy
      have hyp : y ≠ p := by
        unfold PGSIZE at hyk; omega
      refine ⟨(hpages y hy1).1, ?_⟩
      intro i hyi
      by_cases hii : i = id
      · subst hii
        simp only [Function.update_same, List.mem_cons] at hyi
        rcases hyi with h | h
        · exact hyp h
        · exact (hpages y hy1).2 i h
      · simp only [Function.update_noteq hii] at hyi
        exact (hpages y hy1).2 i hyi
    obtain ⟨s1, hrun, hinv2⟩ := ih f (p + PGSIZE) (kfree cfg id p s).state
      (Function.update L id (p :: L id)) (by omega)
      (by unfold Config.WF at hwf; unfold kfreeOk at hpv; unfold PGSIZE at hwf ⊢; omega)
      (by
        by_cases hz : n = 0
        · exact Or.inl hz
        · right
          have : p + PGSIZE + n * PGSIZE = p + (n + 1) * PGSIZE := by ring
          omega)
      (by
        have : p + PGSIZE + (n + 1) * PGSIZE = p + (n + 1 + 1) * PGSIZE := by ring
        omega)
      hinv1 hpages1
    refine ⟨s1, ?_, ?_⟩
    · rw [freerangeLoop]
      simp only [hc, if_true]
      rw [hk]
      simp only [hnw, hrun, Option.map_some', pagesFrom_succ]
    · have hL : Function.update (Function.update L id (p :: L id)) id
          ((pagesFrom (p + PGSIZE) n).reverse ++ Function.update L id (p :: L id) id) =
          Function.update L id ((pagesFrom p (n + 1)).reverse ++ L id) := by
        rw [Function.update_idem, Function.update_same, pagesFrom_succ, List.reverse_cons,
          List.append_assoc, List.singleton_append]
      rw [← hL]
      exact hinv2

theorem runSched_append (cfg : Config) (a b : List Nat) :
    ∀ S, runSched cfg (a ++ b) S = (runSched cfg a S).bind (runSched cfg b) := by
  induction a with
  | nil => intro S; rfl
  | cons c cs ih =>
    intro S
    simp only [List.cons_append, runSched]
    cases h : coreStep cfg c S with
    | none => rfl
    | some S1 => exact ih S1

theorem runSched_cons_some (cfg : Config) (c : Nat) (cs : List Nat) (S S1 : Sys)
    (h : coreStep cfg c S = some S1) : runSched cfg (c :: cs) S = runSched cfg cs S1 := by
  simp only [runSched, h, Option.some_bind]

theorem release_acquired (lk : Spinlock) (h : lk.locked = false) :
    release { lk with locked := true } = lk := by
  cases lk with
  | mk a b =>
    simp only at h
    simp [release, h]

theorem acquire_free (lk : Spinlock) (h : lk.locked = false) :
    acquire lk = some { lk with locked := true } := by
  simp [acquire, h]

/-- The stealing loop run by core `c` alone, from index `i` with `m` indices left: it
ends about to release the own lock, with the result and the state of `kallocScan`. -/
theorem scan_solo (cfg : Config) (c : Nat) :
    ∀ (m i : Nat) (S : Sys), i + m = cfg.NCPU → S.pc c = Pc.acqPeer i →
      (∀ j, j ≠ c → (S.locks j).locked = false) →
      ∃ n S1, runSched cfg (List.replicate n c) S = some S1 ∧
        S1.pc c = Pc.relOwn (kallocScan c S.st (List.range' i m)).ret ∧
        S1.st = (kallocScan c S.st (List.range' i m)).state ∧
        S1.locks = S.locks := by
  intro m
  induction m with
  | zero =>
    intro i S him hpc _
    have hle : cfg.NCPU ≤ i := by omega
    have hstep : coreStep cfg c S =
        some (Sys.mk S.st S.locks (Function.update S.pc c (Pc.relOwn 0))) := by
      simp [coreStep, hpc, hle]
    refine ⟨1, Sys.mk S.st S.locks (Function.update S.pc c (Pc.relOwn 0)), ?_, ?_, ?_, ?_⟩
    · rw [List.replicate_one, runSched_cons_some cfg c [] S _ hstep]; rfl
    · simp [kallocScan]
    · simp [kallocScan]
    · rfl
  | succ m ih =>
    intro i S him hpc hfree
    have hlt : ¬ cfg.NCPU ≤ i := by omega
    rw [List.range'_succ]
    by_cases hic : i = c
    · have hstep : coreStep cfg c S =
          some (Sys.mk S.st S.locks (Function.update S.pc c (Pc.acqPeer (i + 1)))) := by
        simp only [coreStep, hpc, if_neg hlt, if_pos hic]
      obtain ⟨n, S1, hrun, h1, h2, h3⟩ := ih (i + 1)
        (Sys.mk S.st S.locks (Function.update S.pc c (Pc.acqPeer (i + 1)))) (by omega)
        (by simp only [Function.update_same]) hfree
      refine ⟨n + 1, S1, ?_, ?_, ?_, ?_⟩
      · rw [List.replicate_succ, runSched_cons_some cfg c _ S _ hstep]; exact hrun
      · rw [h1]; simp [kallocScan, hic]
      · rw [h2]; simp [kallocScan, hic]
      · rw [h3]
    · have hacq := acquire_free (S.locks i) (hfree i hic)
      have hlocks : Function.update S.locks i (release { S.locks i with locked := true })
          = S.locks := by
        rw [release_acquired _ (hfree i hic), Function.update_eq_self]
      by_cases h0 : S.st.freelist i = 0
      · have hstep : coreStep cfg c S =
            some (Sys.mk S.st S.locks (Function.update S.pc c (Pc.acqPeer (i + 1)))) := by
          simp only [coreStep, hpc, if_neg hlt, if_neg hic, hacq, Option.map_some', if_pos h0,
            hlocks]
        obtain ⟨n, S1, hrun, h1, h2, h3⟩ := ih (i + 1)
          (Sys.mk S.st S.locks (Function.update S.pc c (Pc.acqPeer (i + 1)))) (by omega)
          (by simp only [Function.update_same]) hfree
        refine ⟨n + 1, S1, ?_, ?_, ?_, ?_⟩
        · rw [List.replicate_succ, runSched_cons_some cfg c _ S _ hstep]; exact hrun
        · rw [h1]; simp [kallocScan, hic, h0]
        · rw [h2]; simp [kallocScan, hic, h0]
        · rw [h3]
      · have hstep : coreStep cfg c S = some
            (Sys.mk
              (State.mk S.st.mem
                (Function.update S.st.freelist i (load64 S.st.mem (S.st.freelist i))))
              S.locks
              (Function.update S.pc c (Pc.relOwn (S.st.freelist i)))) := by
          simp only [coreStep, hpc, if_neg hlt, if_neg hic, hacq, Option.map_some', if_neg h0,
            hlocks]
        have hrun1 : runSched cfg (List.replicate 1 c) S = some _ :=
          runSched_cons_some cfg c [] S _ hstep
        refine ⟨1, _, hrun1, ?_, ?_, ?_⟩
        · simp [kallocScan, hic, h0]
        · simp [kallocScan, hic, h0]
        · rfl

/-- A core that runs `kalloc` alone, step by step, with no lock held, returns what
`kalloc` returns, in the state `kalloc` produces, and leaves every lock not held. -/
theorem coreStep_solo_is_kalloc (cfg : Config) (c : Nat) (S : Sys)
    (hpc : S.pc c = Pc.acqOwn) (hfree : ∀ j, (S.locks j).locked = false) :
    ∃ n S1, runSched cfg (List.replicate n c) S = some S1 ∧
      S1.pc c = Pc.done (kalloc cfg c S.st).ret ∧
      S1.st = (kalloc cfg c S.st).state ∧
      S1.locks = S.locks := by
  have hacq := acquire_free (S.locks c) (hfree c)
  have hrel : Function.update (Function.update S.locks c { S.locks c with locked := true }) c
      (release { S.locks c with locked := true }) = S.locks := by
    rw [release_acquired _ (hfree c), Function.update_idem, Function.update_eq_self]
  by_cases hne : S.st.freelist c ≠ 0
  · have hstep1 : coreStep cfg c S = some
        (Sys.mk
          (State.mk S.st.mem
            (Function.update S.st.freelist c (load64 S.st.mem (S.st.freelist c))))
          (Function.update S.locks c { S.locks c with locked := true })
          (Function.update S.pc c (Pc.relOwn (S.st.freelist c)))) := by
      simp only [coreStep, hpc, hacq, Option.map_some', if_pos hne]
    have hstep2 : coreStep cfg c
        (Sys.mk
          (State.mk S.st.mem
            (Function.update S.st.freelist c (load64 S.st.mem (S.st.freelist c))))
          (Function.update S.locks c { S.locks c with locked := true })
          (Function.update S.pc c (Pc.relOwn (S.st.freelist c)))) = some
        (Sys.mk
          (State.mk (memset S.st.mem (S.st.freelist c) 5 PGSIZE)
            (Function.update S.st.freelist c (load64 S.st.mem (S.st.freelist c))))
          S.locks
          (Function.update (Function.update S.pc c (Pc.relOwn (S.st.freelist c))) c
            (Pc.done (S.st.freelist c)))) := by
      simp only [coreStep, Function.update_same, if_pos hne, hrel]
    have hrun2 : runSched cfg (List.replicate 2 c) S = some _ :=
      (runSched_cons_some cfg c [c] S _ hstep1).trans (runSched_cons_some cfg c [] _ _ hstep2)
    refine ⟨2, _, hrun2, ?_, ?_, ?_⟩
    · simp only [Function.update_same, kalloc_local cfg c S.st hne]
    · simp only [kalloc_local cfg c S.st hne]
    · rfl
  · have hstep : coreStep cfg c S = some
        (Sys.mk S.st (Function.update S.locks c { S.locks c with locked := true })
          (Function.update S.pc c (Pc.acqPeer 0))) := by
      simp only [coreStep, hpc, hacq, Option.map_some', if_neg hne]
    obtain ⟨n, S1, hrun, h1, h2, h3⟩ := scan_solo cfg c cfg.NCPU 0
      (Sys.mk S.st (Function.update S.locks c { S.locks c with locked := true })
        (Function.update S.pc c (Pc.acqPeer 0)))
      (by omega) (by simp only [Function.update_same])
      (fun j hj => by simp only [Function.update_noteq hj]; exact hfree j)
    rw [← List.range_eq_range'] at h1 h2
    simp only at h1 h2 h3
    have hk : kalloc cfg c S.st =
        (if (kallocScan c S.st (List.range cfg.NCPU)).ret ≠ 0 then
          KallocResult.mk (kallocScan c S.st (List.range cfg.NCPU)).ret
            (State.mk
              (memset (kallocScan c S.st (List.range cfg.NCPU)).state.mem
                (kallocScan c S.st (List.range cfg.NCPU)).ret 5 PGSIZE)
              (kallocScan c S.st (List.range cfg.NCPU)).state.freelist)
            (kallocScan c S.st (List.range cfg.NCPU)).probed
        else kallocScan c S.st (List.range cfg.NCPU)) := by
      simp only [kalloc, if_neg hne]
    have hlast : coreStep cfg c S1 = some
        (Sys.mk
          (if (kallocScan c S.st (List.range cfg.NCPU)).ret ≠ 0 then
            State.mk (memset S1.st.mem (kallocScan c S.st (List.range cfg.NCPU)).ret 5 PGSIZE)
              S1.st.freelist
          else S1.st)
          S.locks
          (Function.update S1.pc c
            (Pc.done (kallocScan c S.st (List.range cfg.NCPU)).ret))) := by
      simp only [coreStep, h1, h3, Function.update_same, hrel]
    have hrunN : runSched cfg (List.replicate ((n + 1) + 1) c) S = coreStep cfg c S1 := by
      rw [List.replicate_succ, runSched_cons_some cfg c _ S _ hstep, List.replicate_succ',
        runSched_append, hrun, Option.some_bind, runSched, hlast]
      rfl
    refine ⟨(n + 1) + 1, _, hrunN.trans hlast, ?_, ?_, ?_⟩
    · simp only [Function.update_same, hk]
      split_ifs <;> rfl
    · simp only [hk, h2]
      split_ifs <;> rfl
    · rfl

/-! ## The claims -/

/-! ## C1: round trip `kfree(x); kalloc()` -/

/-- C1 as stated fails for an address that is already linked.  After `kfree(Y)` and
`kfree(X)` on core 1 the list of core 1 is `[X, Y]` and `X` still passes validation.
`kfree(X)` followed by `kalloc()` on core 0 does return `X`, but the poisoned frame `X`
is still linked on core 1, whose list is now `[X, 0x0505050505050505]` and no longer
`[X, Y]`.  Here `X = 0x80030000`, `Y = 0x80031000`. -/
theorem round_trip_lists_restored_counterexample :
    kfreeOk xv6 0x80030000 ∧
      IsList (kfree xv6 1 0x80030000 (kfree xv6 1 0x80031000 emptyState).state).state.mem
        ((kfree xv6 1 0x80030000 (kfree xv6 1 0x80031000 emptyState).state).state.freelist 1)
        [0x80030000, 0x80031000] ∧
      (kalloc xv6 0 (kfree xv6 0 0x80030000
        (kfree xv6 1 0x80030000 (kfree xv6 1 0x80031000 emptyState).state).state).state).ret
        = 0x80030000 ∧
      IsList
        (kalloc xv6 0 (kfree xv6 0 0x80030000
          (kfree xv6 1 0x80030000
            (kfree xv6 1 0x80031000 emptyState).state).state).state).state.mem
        ((kalloc xv6 0 (kfree xv6 0 0x80030000
          (kfree xv6 1 0x80030000
            (kfree xv6 1 0x80031000 emptyState).state).state).state).state.freelist 1)
        [0x80030000, 0x0505050505050505] ∧
      ¬ IsList
        (kalloc xv6 0 (kfree xv6 0 0x80030000
          (kfree xv6 1 0x80030000
            (kfree xv6 1 0x80031000 emptyState).state).state).state).state.mem
        ((kalloc xv6 0 (kfree xv6 0 0x80030000
          (kfree xv6 1 0x80030000
            (kfree xv6 1 0x80031000 emptyState).state).state).state).state.freelist 1)
        [0x80030000, 0x80031000] := by
  decide

/-- C1, amended. For every state, every core `id` and every `x` that passes
validation, `kfree(x)` on core `id` returns and the `kalloc()` that follows on the
same core returns exactly `x`.  If moreover the state satisfies the data-model
invariants with lists `L` and `x` is not linked in any per-core list before the
`kfree`, then afterwards every per-core list is what it was before (the lists are
again `L`, with the same head pointers). -/
theorem kfree_then_kalloc_round_trip (cfg : Config) (id x : Nat) (s : State)
    (hwf : cfg.WF) (hid : id < cfg.NCPU) (hx : kfreeOk cfg x) :
    kfree cfg id x s = Outcome.ok (kfree cfg id x s).state ∧
      (kalloc cfg id (kfree cfg id x s).state).ret = x ∧
      (∀ L, Inv cfg s L → (∀ i, x ∉ L i) →
        Inv cfg (kalloc cfg id (kfree cfg id x s).state).state L ∧
        ∀ i, i < cfg.NCPU →
          (kalloc cfg id (kfree cfg id x s).state).state.freelist i = s.freelist i) := by
  have hk := kfree_ok cfg id x s hx
  have hx0 : x ≠ 0 := by
    unfold Config.WF at hwf; unfold kfreeOk at hx; omega
  have hhead : (kfree cfg id x s).state.freelist id = x := by
    rw [hk]; simp only [Outcome.state, Function.update_same]
  have hne : (kfree cfg id x s).state.freelist id ≠ 0 := by rw [hhead]; exact hx0
  have hka := kalloc_local cfg id _ hne
  refine ⟨by rw [hk]; rfl, by rw [hka]; exact hhead, ?_⟩
  intro L hinv hfresh
  obtain ⟨_, hinv1⟩ := kfree_inv cfg id x s L hwf hid hx hinv hfresh
  have hpop := pop_inv cfg id x (L id) (kfree cfg id x s).state _ hinv1 hid
    (by simp only [Function.update_same])
  have hL : Function.update (Function.update L id (x :: L id)) id (L id) = L := by
    funext i
    by_cases hi : i = id
    · subst hi; simp only [Function.update_same]
    · simp only [Function.update_noteq hi]
  rw [hL] at hpop
  rw [hka, hhead]
  refine ⟨hpop, ?_⟩
  intro i hi
  have h1 := IsList_head_eq_of_same_list _ _ _ _ _ (hpop.rep i hi) (hinv.rep i hi)
  exact h1

/-- C1, amended, at a concrete input: the round trip of the fresh frame `0x80030000`
on core 0 of the empty state. -/
theorem kfree_then_kalloc_round_trip_witness :
    (kalloc xv6 0 (kfree xv6 0 0x80030000 emptyState).state).ret = 0x80030000 :=
  (kfree_then_kalloc_round_trip xv6 0 0x80030000 emptyState (by decide) (by decide)
    (by decide)).2.1

/-! ## C2: descending hand-out after a range reclaim -/

/-- C2. For every page-aligned `P` and every `n` with `[P, P + n * PGSIZE)` inside
`[end, PHYSTOP)`, in a state in which every per-core list is empty,
`freerange(P, P + n * PGSIZE)` on core `c` returns after freeing the `n` pages
`P, P + PGSIZE, ...` in increasing order, and the `n + 1` calls of `kalloc()` on core
`c` that follow return `P + (n - 1) * PGSIZE, ..., P + PGSIZE, P` and then 0. -/
theorem freerange_then_kallocs_descending (cfg : Config) (c P n : Nat) (s : State)
    (hwf : cfg.WF) (hc : c < cfg.NCPU) (hP : P % PGSIZE = 0) (hlo : cfg.kend ≤ P)
    (hhi : P + n * PGSIZE ≤ cfg.PHYSTOP) (hempty : ∀ i, i < cfg.NCPU → s.freelist i = 0) :
    ∃ s1,
      freerange cfg c P (P + n * PGSIZE) s =
        some ((List.range n).map (fun k => P + k * PGSIZE), Outcome.ok s1) ∧
      (kallocs cfg (List.replicate (n + 1) c) s1).1 =
        ((List.range n).map (fun k => P + k * PGSIZE)).reverse ++ [0] := by
  have hw : P + PGSIZE ≤ WORD := by
    unfold Config.WF at hwf; unfold PGSIZE at *; omega
  have hr : PGROUNDUP P = P := PGROUNDUP_aligned P hw hP
  have hn : (P + n * PGSIZE - PGROUNDUP P) / PGSIZE = n := by
    rw [hr, Nat.add_sub_cancel_left]
    exact Nat.mul_div_cancel n (by decide)
  obtain ⟨s1, hrun, hinv⟩ := freerange_inv cfg c P (P + n * PGSIZE) s (fun _ => []) hwf hc hlo
    (Nat.le_add_right _ _) hhi (inv_empty cfg s hempty) (fun _ _ _ => List.not_mem_nil _)
  rw [hn, hr] at hrun hinv
  refine ⟨s1, hrun, ?_⟩
  have hd := kallocs_drain_local cfg c hc ((pagesFrom P n).reverse ++ []) s1 _ hinv
    (by simp only [Function.update_same])
    (fun i _ hic => by rw [Function.update_noteq hic])
  rw [List.append_nil, List.length_reverse, length_pagesFrom] at hd
  exact hd

/-- C2 at the instance of the specification, `n = 3`, with `P = 0x80030000` on core 0
of the empty state: the three frames come back in descending order, then 0. -/
theorem freerange_then_kallocs_descending_witness :
    ∃ s1,
      freerange xv6 0 0x80030000 (0x80030000 + 3 * PGSIZE) emptyState =
        some ([0x80030000, 0x80031000, 0x80032000], Outcome.ok s1) ∧
      (kallocs xv6 [0, 0, 0, 0] s1).1 = [0x80032000, 0x80031000, 0x80030000, 0] :=
  freerange_then_kallocs_descending xv6 0 0x80030000 3 emptyState (by decide) (by decide)
    (by decide) (by decide) (by decide) (fun _ _ => rfl)

/-! ## C3: no double issue -/

/-- C3 as stated fails.  `X = 0x80030000` passes validation; the calls `kfree(X)`,
`kfree(X)`, `kalloc()`, `kalloc()` on core 0, starting from the empty state, all return
(no panic), and both `kalloc()` calls return `X` with no `kfree` between them: the
second `kfree(X)` links `X` to itself, and the poisoning by the first `kalloc()` comes
after the head was reloaded from `X`. -/
theorem no_double_issue_counterexample :
    kfreeOk xv6 0x80030000 ∧
      (exec xv6 [Call.kfree 0 0x80030000, Call.kfree 0 0x80030000, Call.kalloc 0,
          Call.kalloc 0] emptyState).map Prod.fst =
        some [Event.freed 0x80030000, Event.freed 0x80030000, Event.alloc 0x80030000,
          Event.alloc 0x80030000] ∧
      ¬ NoDoubleIssue [Event.freed 0x80030000, Event.freed 0x80030000,
          Event.alloc 0x80030000, Event.alloc 0x80030000] := by
  refine ⟨by decide, by decide, ?_⟩
  intro h
  have := h [Event.freed 0x80030000, Event.freed 0x80030000] [] [] 0x80030000 (by decide) rfl
  exact absurd this (List.not_mem_nil _)

/-- C3, amended. For every sequence of `kfree`/`kalloc`/`freerange` calls by cores
below `NCPU` that starts with all lists empty and runs without panic (every `kfree`
argument passes validation), if no address is freed twice without a `kalloc()`
returning it in between (no double free, the frees issued by `freerange` included),
then no frame address is returned by two `kalloc()` calls of the sequence unless a
`kfree` of that same address occurs between them. -/
theorem no_double_issue_without_double_free (cfg : Config) (calls : List Call)
    (s0 : State) (log : List Event) (hwf : cfg.WF)
    (hempty : ∀ i, i < cfg.NCPU → s0.freelist i = 0)
    (hcore : ∀ c ∈ calls, c.core < cfg.NCPU)
    (hexec : (exec cfg calls s0).map Prod.fst = some log)
    (hndf : NoDoubleFree log) : NoDoubleIssue log := by
  obtain ⟨s1, hex⟩ : ∃ s1, exec cfg calls s0 = some (log, s1) := by
    cases he : exec cfg calls s0 with
    | none => rw [he] at hexec; cases hexec
    | some r =>
      rw [he] at hexec
      simp only [Option.map_some', Option.some.injEq] at hexec
      exact ⟨r.2, by rw [← hexec]⟩
  have hrun := exec_EvRun cfg calls s0 s1 log hcore hex
  intro a b c x hx0 hl
  have hl2 : log = (a ++ Event.alloc x :: b) ++ (Event.alloc x :: c) := by
    rw [hl]
  rw [hl2] at hrun hndf
  obtain ⟨sp, hrunp, hrest⟩ := (EvRun_append cfg _ _ s0 s1).mp hrun
  obtain ⟨L, hinv, hfree⟩ := run_inv cfg hwf s0 hempty _ sp hrunp (NoDoubleFree_of_append _ _ hndf)
  obtain ⟨sq, ⟨id, hid, hret, _⟩, _⟩ := hrest
  rcases kalloc_inv cfg id sp L hid hinv with ⟨_, hk⟩ | ⟨j, r, t, _, hlj, _, _, hret1, _, _⟩
  · rw [hk] at hret
    exact absurd hret.symm hx0
  · have hxj : x ∈ L j := by
      rw [hlj, ← hret, hret1]; exact List.mem_cons_self _ _
    obtain ⟨a1, b1, hdec, hb1⟩ := freeAfter_decomp x _ (hfree j x hxj)
    exact freed_between a b a1 b1 x hdec hb1

/-- C3, amended, at a concrete input: two frames are freed on core 0, then handed out
to cores 0 and 3, then `kalloc()` finds nothing. -/
theorem no_double_issue_without_double_free_witness :
    NoDoubleIssue [Event.freed 0x80030000, Event.freed 0x80031000, Event.alloc 0x80031000,
      Event.alloc 0x80030000, Event.alloc 0] :=
  no_double_issue_without_double_free xv6
    [Call.kfree 0 0x80030000, Call.kfree 0 0x80031000, Call.kalloc 0, Call.kalloc 3,
      Call.kalloc 0]
    emptyState _ (by decide) (fun _ _ => rfl) (by decide) (by decide)
    (noDoubleFree_of_nodup _ (by decide))

/-! ## C4: conservation -/

/-- C4. Starting from all-empty lists, the calls `freerange(start_i, stop_i)` (each on
some core `c_i`) over pairwise disjoint ranges inside `[end, PHYSTOP)` all return, and
calling `kalloc()` afterwards again and again, on any cores `sched 0, sched 1, ...`,
until it first returns 0 yields pairwise distinct non-null frame addresses, each a whole
page of one of the ranges, whose number is the total number of whole pages of the
ranges (the page-aligned `p` with `start_i ≤ p` and `p + PGSIZE ≤ stop_i`).  Any budget
of more calls than that number suffices to reach the 0. -/
theorem freeranges_then_drain_conserves (cfg : Config) (ranges : List (Nat × Nat × Nat))
    (s : State) (sched : Nat → Nat) (fuel : Nat) (hwf : cfg.WF)
    (hempty : ∀ i, i < cfg.NCPU → s.freelist i = 0)
    (hok : ∀ r ∈ ranges, r.1 < cfg.NCPU ∧ cfg.kend ≤ r.2.1 ∧ r.2.1 ≤ r.2.2 ∧
      r.2.2 ≤ cfg.PHYSTOP)
    (hdisj : ranges.Pairwise (fun r1 r2 => r1.2.2 ≤ r2.2.1 ∨ r2.2.2 ≤ r1.2.1))
    (hsched : ∀ k, sched k < cfg.NCPU)
    (hfuel : (ranges.map (fun r => (wholePages r.2.1 r.2.2).card)).sum < fuel) :
    ∃ s1 frames, freeranges cfg ranges s = some s1 ∧
      kallocUntilEmpty cfg sched fuel 0 s1 = some frames ∧
      frames.Nodup ∧
      frames.length = (ranges.map (fun r => (wholePages r.2.1 r.2.2).card)).sum ∧
      ∀ y ∈ frames, y ≠ 0 ∧ ∃ r ∈ ranges, y ∈ wholePages r.2.1 r.2.2 := by
  obtain ⟨s1, L1, hrun, hinv1, htot, hmem⟩ := freeranges_inv cfg hwf ranges s (fun _ => [])
    (inv_empty cfg s hempty) hok hdisj (fun _ _ hy => absurd hy (List.not_mem_nil _))
  have htot1 : (∑ i in Finset.range cfg.NCPU, (L1 i).length) =
      (ranges.map (fun r => (wholePages r.2.1 r.2.2).card)).sum := by
    rw [htot]; simp
  obtain ⟨frames, hdrain, hlen, hnd, hfr⟩ :=
    kallocUntilEmpty_inv cfg sched hsched _ fuel 0 s1 L1 hinv1 htot1 hfuel
  refine ⟨s1, frames, hrun, hdrain, hnd, hlen, ?_⟩
  intro y hy
  obtain ⟨h0, i, _, hyi⟩ := hfr y hy
  refine ⟨h0, ?_⟩
  rcases hmem i y hyi with h | h
  · exact absurd h (List.not_mem_nil _)
  · exact h

/-- C4 at a concrete input: two disjoint ranges, `[0x80030800, 0x80033000)` freed on
core 0 (two whole pages, the start is not aligned) and `[0x80040000, 0x80041000)` freed
on core 5 (one page), then `kalloc()` on cores 0, 1, 2, ... until empty, with a budget
of one call more than the number of whole pages. -/
theorem freeranges_then_drain_conserves_witness :
    ∃ s1 frames,
      freeranges xv6 [(0, 0x80030800, 0x80033000), (5, 0x80040000, 0x80041000)] emptyState
        = some s1 ∧
      kallocUntilEmpty xv6 (fun k => k % 8)
        (([(0, 0x80030800, 0x80033000), (5, 0x80040000, 0x80041000)].map
          (fun r => (wholePages r.2.1 r.2.2).card)).sum + 1) 0 s1 = some frames ∧
      frames.Nodup ∧
      frames.length =
        ([(0, 0x80030800, 0x80033000), (5, 0x80040000, 0x80041000)].map
          (fun r => (wholePages r.2.1 r.2.2).card)).sum ∧
      ∀ y ∈ frames, y ≠ 0 ∧
        ∃ r ∈ [(0, 0x80030800, 0x80033000), (5, 0x80040000, 0x80041000)],
          y ∈ wholePages r.2.1 r.2.2 :=
  freeranges_then_drain_conserves xv6
    [(0, 0x80030800, 0x80033000), (5, 0x80040000, 0x80041000)] emptyState (fun k => k % 8) _
    (by decide) (fun _ _ => rfl) (by decide) (by decide)
    (fun k => Nat.mod_lt k (by decide))
    (Nat.lt_add_one _)

/-! ## C5: fault isolation of `kfree` -/

/-- C5. `kfree(pa)` reaches `panic("kfree")` if and only if `pa` is not a multiple of
`PGSIZE`, or `pa < end`, or `pa >= PHYSTOP`; and the state in which it panics is the
state in which it was called: no list head and no byte of memory has been modified. -/
theorem kfree_panic_iff_invalid_and_state_untouched (cfg : Config) (id pa : Nat) (s : State) :
    ((∃ s1, kfree cfg id pa s = Outcome.panic s1) ↔
        (pa % PGSIZE ≠ 0 ∨ pa < cfg.kend ∨ pa ≥ cfg.PHYSTOP)) ∧
      (∀ s1, kfree cfg id pa s = Outcome.panic s1 → s1 = s) := by
  by_cases hb : kfreeBad cfg pa
  · have hk : kfree cfg id pa s = Outcome.panic s := by simp [kfree, hb]
    rw [hk]
    refine ⟨⟨fun _ => hb, fun _ => ⟨s, rfl⟩⟩, ?_⟩
    intro s1 h
    injection h with h
    exact h.symm
  · have hk : ∀ s1, kfree cfg id pa s ≠ Outcome.panic s1 := by
      intro s1; simp [kfree, hb]
    refine ⟨⟨fun ⟨s1, h⟩ => absurd h (hk s1), fun h => absurd h hb⟩, ?_⟩
    intro s1 h
    exact absurd h (hk s1)

/-- C5 at a concrete input: the misaligned address `0x80030001` makes `kfree` panic
in the very state it was called in. -/
theorem kfree_panic_iff_invalid_and_state_untouched_witness :
    kfree xv6 0 0x80030001 emptyState = Outcome.panic emptyState := by
  obtain ⟨s1, h⟩ := (kfree_panic_iff_invalid_and_state_untouched xv6 0 0x80030001
    emptyState).1.mpr (Or.inl (by decide))
  have h2 := (kfree_panic_iff_invalid_and_state_untouched xv6 0 0x80030001 emptyState).2 s1 h
  rw [h2] at h
  exact h

/-! ## C6: poisoning by `kfree` -/

/-- C6 as stated fails: after `kfree(0x80030000)` on core 0 in the empty state the
address passes validation, yet the first byte of the frame is 0 (the link to the
previous, empty list), not the free sentinel 1. -/
theorem kfree_poison_all_bytes_counterexample :
    kfreeOk xv6 0x80030000 ∧
      ¬ (∀ a, 0x80030000 ≤ a → a < 0x80030000 + PGSIZE →
          (kfree xv6 0 0x80030000 emptyState).state.mem a = 1) := by
  refine ⟨by decide, ?_⟩
  intro h
  have h0 := h 0x80030000 (by decide) (by decide)
  revert h0
  decide

/-- C6, amended. For every `x` that passes validation, `kfree(x)` on core `id`
returns, and immediately afterwards every byte of frame `x` from offset 8 up to
`PGSIZE - 1` equals the free sentinel 1, while the first 8 bytes hold, little-endian,
the previous head pointer of the list of core `id` (the link `r->next`). -/
theorem kfree_poisons_frame_except_link (cfg : Config) (id x : Nat) (s : State)
    (hx : kfreeOk cfg x) :
    kfree cfg id x s = Outcome.ok (kfree cfg id x s).state ∧
      (∀ a, x + 8 ≤ a → a < x + PGSIZE → (kfree cfg id x s).state.mem a = 1) ∧
      (∀ k, k < 8 → (kfree cfg id x s).state.mem (x + k) = (s.freelist id / 256 ^ k) % 256) := by
  rw [kfree_ok cfg id x s hx]
  refine ⟨rfl, ?_, ?_⟩
  · intro a h1 h2
    simp only [Outcome.state]
    rw [store64_outside _ _ _ _ (by omega), memset_inside _ _ _ _ _ (by omega) h2]
  · intro k hk
    simp only [Outcome.state, store64]
    have h1 : x ≤ x + k ∧ x + k < x + 8 := ⟨by omega, by omega⟩
    simp only [h1, and_self, if_true, Nat.add_sub_cancel_left]

/-- C6, amended, at a concrete input: `kfree(0x80030000)` on core 0 in the empty
state leaves the sentinel 1 in the bytes at offsets 8 and 4095 of the frame. -/
theorem kfree_poisons_frame_except_link_witness :
    (kfree xv6 0 0x80030000 emptyState).state.mem (0x80030000 + 8) = 1 ∧
      (kfree xv6 0 0x80030000 emptyState).state.mem (0x80030000 + 4095) = 1 :=
  ⟨(kfree_poisons_frame_except_link xv6 0 0x80030000 emptyState (by decide)).2.1
      (0x80030000 + 8) (by decide) (by decide),
    (kfree_poisons_frame_except_link xv6 0 0x80030000 emptyState (by decide)).2.1
      (0x80030000 + 4095) (by decide) (by decide)⟩

/-! ## C7: poisoning by `kalloc` -/

/-- C7. Whenever `kalloc()` on core `id` returns a non-null frame `r` (from the local
list or stolen from a peer), every one of the `PGSIZE` bytes of `r` equals the
allocation sentinel 5, which is not the free sentinel 1; and whatever `kalloc`
returns, every byte of memory outside `[r, r + PGSIZE)` is left as it was. -/
theorem kalloc_poisons_exactly_returned_frame (cfg : Config) (id : Nat) (s : State) :
    ((kalloc cfg id s).ret ≠ 0 →
        ∀ a, (kalloc cfg id s).ret ≤ a → a < (kalloc cfg id s).ret + PGSIZE →
          (kalloc cfg id s).state.mem a = 5 ∧ (kalloc cfg id s).state.mem a ≠ 1) ∧
      (∀ a, ¬ ((kalloc cfg id s).ret ≠ 0 ∧ (kalloc cfg id s).ret ≤ a ∧
            a < (kalloc cfg id s).ret + PGSIZE) →
          (kalloc cfg id s).state.mem a = s.mem a) := by
  rcases kalloc_cases cfg id s with h | ⟨h0, hall⟩ | ⟨h0, j, hj, hji, hne, hlow⟩
  · rw [kalloc_local cfg id s h]
    refine ⟨fun _ a h1 h2 => ?_, fun a ha => ?_⟩
    · have hm := memset_inside s.mem _ 5 PGSIZE a h1 h2
      exact ⟨hm, fun hc => absurd (hm.symm.trans hc) (by decide)⟩
    · exact memset_outside _ _ _ _ _ (fun hc => ha ⟨h, hc.1, hc.2⟩)
  · rw [kalloc_empty cfg id s h0 hall]
    exact ⟨fun hc => absurd rfl hc, fun a _ => rfl⟩
  · rw [kalloc_steal cfg id j s h0 hj hji hne hlow]
    refine ⟨fun _ a h1 h2 => ?_, fun a ha => ?_⟩
    · have hm := memset_inside s.mem _ 5 PGSIZE a h1 h2
      exact ⟨hm, fun hc => absurd (hm.symm.trans hc) (by decide)⟩
    · exact memset_outside _ _ _ _ _ (fun hc => ha ⟨hne, hc.1, hc.2⟩)

/-- C7 at a concrete input: core 3 steals the frame `0x80030000` freed on core 0; the
byte at offset 100 of the frame is 5 afterwards. -/
theorem kalloc_poisons_exactly_returned_frame_witness :
    (kalloc xv6 3 (kfree xv6 0 0x80030000 emptyState).state).state.mem (0x80030000 + 100) = 5 :=
  ((kalloc_poisons_exactly_returned_frame xv6 3 (kfree xv6 0 0x80030000 emptyState).state).1
    (by decide) (0x80030000 + 100) (by decide) (by decide)).1

/-! ## C8: exhaustion -/

/-- C8. On every state and every calling core `id < NCPU`, `kalloc()` returns 0 if and
only if every one of the `NCPU` list heads is null; in that case the state (all list
heads and all memory) is unchanged and the stealing loop has examined every peer
`i ≠ id` exactly once, in index order. -/
theorem kalloc_null_iff_all_lists_empty (cfg : Config) (id : Nat) (s : State)
    (hid : id < cfg.NCPU) :
    ((kalloc cfg id s).ret = 0 ↔ ∀ i, i < cfg.NCPU → s.freelist i = 0) ∧
      ((kalloc cfg id s).ret = 0 →
        (kalloc cfg id s).state = s ∧
        (kalloc cfg id s).probed = (List.range cfg.NCPU).filter (fun i => i ≠ id)) := by
  rcases kalloc_cases cfg id s with h | ⟨h0, hall⟩ | ⟨h0, j, hj, hji, hne, hlow⟩
  · rw [kalloc_local cfg id s h]
    exact ⟨⟨fun hc => absurd hc h, fun hc => absurd (hc id hid) h⟩, fun hc => absurd hc h⟩
  · rw [kalloc_empty cfg id s h0 hall]
    refine ⟨⟨fun _ i hi => ?_, fun _ => rfl⟩, fun _ => ⟨rfl, rfl⟩⟩
    by_cases hii : i = id
    · rw [hii]; exact h0
    · exact hall i hi hii
  · rw [kalloc_steal cfg id j s h0 hj hji hne hlow]
    exact ⟨⟨fun hc => absurd hc hne, fun hc => absurd (hc j hj) hne⟩, fun hc => absurd hc hne⟩

/-- C8 at a concrete input: in the empty state `kalloc()` on core 2 returns 0 after
examining the peers 0, 1, 3, 4, 5, 6, 7. -/
theorem kalloc_null_iff_all_lists_empty_witness :
    (kalloc xv6 2 emptyState).ret = 0 ∧
      (kalloc xv6 2 emptyState).probed = [0, 1, 3, 4, 5, 6, 7] :=
  have h0 : (kalloc xv6 2 emptyState).ret = 0 :=
    (kalloc_null_iff_all_lists_empty xv6 2 emptyState (by decide)).1.mpr (fun _ _ => rfl)
  ⟨h0, ((kalloc_null_iff_all_lists_empty xv6 2 emptyState (by decide)).2 h0).2⟩

/-! ## C9: stealing -/

/-- C9 as stated fails in a state where one frame is linked on two lists.  After
`kfree(X)` on core 1 and `kfree(X)` on core 2 (`X = 0x80030000` passes validation both
times) the list of core 0 is empty and the lists of cores 1 and 2 are both `[X]`.
`kalloc()` on core 0 returns `X`, the head of the lowest-indexed non-empty peer list
(core 1), and then fills `X` with the allocation sentinel: the list of core 2, which is
neither the caller's nor the one stolen from, is now `[X, 0x0505050505050505]` and no
longer `[X]`. -/
theorem kalloc_steal_other_lists_unchanged_counterexample :
    kfreeOk xv6 0x80030000 ∧
      (kfree xv6 2 0x80030000 (kfree xv6 1 0x80030000 emptyState).state).state.freelist 0 = 0 ∧
      IsList (kfree xv6 2 0x80030000 (kfree xv6 1 0x80030000 emptyState).state).state.mem
        ((kfree xv6 2 0x80030000 (kfree xv6 1 0x80030000 emptyState).state).state.freelist 1)
        [0x80030000] ∧
      IsList (kfree xv6 2 0x80030000 (kfree xv6 1 0x80030000 emptyState).state).state.mem
        ((kfree xv6 2 0x80030000 (kfree xv6 1 0x80030000 emptyState).state).state.freelist 2)
        [0x80030000] ∧
      (kalloc xv6 0
        (kfree xv6 2 0x80030000 (kfree xv6 1 0x80030000 emptyState).state).state).ret
        = 0x80030000 ∧
      (kalloc xv6 0
        (kfree xv6 2 0x80030000 (kfree xv6 1 0x80030000 emptyState).state).state).probed
        = [1] ∧
      IsList
        (kalloc xv6 0
          (kfree xv6 2 0x80030000 (kfree xv6 1 0x80030000 emptyState).state).state).state.mem
        ((kalloc xv6 0
          (kfree xv6 2 0x80030000
            (kfree xv6 1 0x80030000 emptyState).state).state).state.freelist 2)
        [0x80030000, 0x0505050505050505] ∧
      ¬ IsList
        (kalloc xv6 0
          (kfree xv6 2 0x80030000 (kfree xv6 1 0x80030000 emptyState).state).state).state.mem
        ((kalloc xv6 0
          (kfree xv6 2 0x80030000
            (kfree xv6 1 0x80030000 emptyState).state).state).state.freelist 2)
        [0x80030000] := by
  decide

/-- C9, amended. In every state that satisfies the data-model invariants with lists
`L` (every linked frame passes validation, no frame is linked twice) and in which the
list of the calling core `id` is empty and some list is not, `kalloc()` on core `id`
returns the head frame of the lowest-indexed non-empty peer list `j ≠ id`, after
examining the peers below `j` and then `j`; the head of list `j` becomes the link
stored in that frame and no other head changes.  List `j` is `r :: t` for the returned
`r`, and afterwards the lists are `L` with list `j` replaced by its tail `t`: exactly
one frame left list `j`, list `id` is still empty, every other list is unchanged, and
the invariants hold again. -/
theorem kalloc_steals_head_of_lowest_peer (cfg : Config) (id : Nat) (s : State)
    (L : Nat → List Nat) (hid : id < cfg.NCPU) (hinv : Inv cfg s L)
    (h0 : L id = []) (hex : ∃ j, j < cfg.NCPU ∧ L j ≠ []) :
    ∃ j t, j < cfg.NCPU ∧ j ≠ id ∧ L j = (kalloc cfg id s).ret :: t ∧
      (∀ i, i < j → i ≠ id → L i = []) ∧
      (kalloc cfg id s).ret = s.freelist j ∧
      (kalloc cfg id s).ret ≠ 0 ∧
      (kalloc cfg id s).probed = (List.range j).filter (fun i => i ≠ id) ++ [j] ∧
      (kalloc cfg id s).state.freelist j = load64 s.mem (s.freelist j) ∧
      (∀ i, i ≠ j → (kalloc cfg id s).state.freelist i = s.freelist i) ∧
      Inv cfg (kalloc cfg id s).state (Function.update L j t) ∧
      Function.update L j t id = [] ∧
      (∀ i, i ≠ j → Function.update L j t i = L i) := by
  have hh0 : s.freelist id = 0 := (hinv.head_eq_zero_iff id hid).mpr h0
  rcases kalloc_cases cfg id s with h | ⟨_, hall⟩ | ⟨_, j, hj, hji, hne, hlow⟩
  · exact absurd hh0 h
  · obtain ⟨j, hj, hne⟩ := hex
    by_cases hji : j = id
    · exact absurd (hji ▸ h0) hne
    · exact absurd ((hinv.head_eq_zero_iff j hj).mp (hall j hj hji)) hne
  · have hk := kalloc_steal cfg id j s hh0 hj hji hne hlow
    have hrep := hinv.rep j hj
    cases hl : L j with
    | nil => rw [hl] at hrep; exact absurd hrep hne
    | cons x t =>
      rw [hl] at hrep
      have hx : s.freelist j = x := hrep.1
      refine ⟨j, t, hj, hji, by rw [hk, hx]; exact hl, ?_, by rw [hk], by rw [hk]; exact hne,
        by rw [hk], ?_, ?_, ?_, ?_, ?_⟩
      · intro i hi hii
        exact (hinv.head_eq_zero_iff i (Nat.lt_trans hi hj)).mp (hlow i hi hii)
      · rw [hk]; simp only [Function.update_same]
      · intro i hij
        rw [hk]; simp only [Function.update_noteq hij]
      · rw [hk, hx]
        exact pop_inv cfg j x t s L hinv hj hl
      · rw [Function.update_noteq (Ne.symm hji)]; exact h0
      · intro i hij
        exact Function.update_noteq hij _ _

/-- C9, amended, at a concrete input: frame `0x80030000` sits on the list of core 1,
every other list is empty, and core 0 calls `kalloc()`: it gets that frame from a peer
and the caller's list is still empty. -/
theorem kalloc_steals_head_of_lowest_peer_witness :
    ∃ j t, j < xv6.NCPU ∧ j ≠ 0 ∧
      Function.update (fun _ => ([] : List Nat)) 1 [0x80030000] j =
        (kalloc xv6 0 (kfree xv6 1 0x80030000 emptyState).state).ret :: t ∧
      Inv xv6 (kalloc xv6 0 (kfree xv6 1 0x80030000 emptyState).state).state
        (Function.update (Function.update (fun _ => ([] : List Nat)) 1 [0x80030000]) j t) := by
  obtain ⟨j, t, h1, h2, h3, _, _, _, _, _, _, h10, _⟩ :=
    kalloc_steals_head_of_lowest_peer xv6 0 (kfree xv6 1 0x80030000 emptyState).state
      (Function.update (fun _ => ([] : List Nat)) 1 [0x80030000]) (by decide)
      (kfree_inv xv6 1 0x80030000 emptyState (fun _ => []) (by decide) (by decide) (by decide)
        (inv_empty xv6 emptyState (fun _ _ => rfl)) (fun _ => List.not_mem_nil _)).2
      (by simp) ⟨1, by decide, by simp⟩
  exact ⟨j, t, h1, h2, h3, h10⟩

/-! ## C10: `kfree` targets the calling core -/

/-- C10 as stated fails for an address that is already linked.  After `kfree(Y)` and
`kfree(X)` on core 1 the list of core 1 is `[X, Y]`; `X` still passes validation, and
`kfree(X)` executed on core 0 overwrites the link of `X`, so the list of core 1 becomes
`[X]`: a list of another core has changed.  Here `X = 0x80030000`, `Y = 0x80031000`. -/
theorem kfree_other_lists_unchanged_counterexample :
    kfreeOk xv6 0x80030000 ∧
      IsList (kfree xv6 1 0x80030000 (kfree xv6 1 0x80031000 emptyState).state).state.mem
        ((kfree xv6 1 0x80030000 (kfree xv6 1 0x80031000 emptyState).state).state.freelist 1)
        [0x80030000, 0x80031000] ∧
      IsList
        (kfree xv6 0 0x80030000
          (kfree xv6 1 0x80030000 (kfree xv6 1 0x80031000 emptyState).state).state).state.mem
        ((kfree xv6 0 0x80030000
          (kfree xv6 1 0x80030000 (kfree xv6 1 0x80031000 emptyState).state).state).state.freelist 1)
        [0x80030000] := by
  decide

/-- C10, amended. For every state that satisfies the data-model invariants with lists
`L`, every core `id` and every `x` that passes validation and is not linked in any
per-core list, `kfree(x)` executed on core `id` returns, makes `x` the head of the list
of core `id` with the previous list `L id` as its tail, and leaves the list (and the
head pointer) of every other core unchanged. -/
theorem kfree_pushes_on_calling_core (cfg : Config) (id x : Nat) (s : State)
    (L : Nat → List Nat) (hwf : cfg.WF) (hid : id < cfg.NCPU) (hx : kfreeOk cfg x)
    (hinv : Inv cfg s L) (hfresh : ∀ i, x ∉ L i) :
    kfree cfg id x s = Outcome.ok (kfree cfg id x s).state ∧
      Inv cfg (kfree cfg id x s).state (Function.update L id (x :: L id)) ∧
      (kfree cfg id x s).state.freelist id = x ∧
      load64 (kfree cfg id x s).state.mem x = s.freelist id ∧
      (∀ i, i ≠ id → Function.update L id (x :: L id) i = L i ∧
        (kfree cfg id x s).state.freelist i = s.freelist i) := by
  obtain ⟨h1, h2⟩ := kfree_inv cfg id x s L hwf hid hx hinv hfresh
  refine ⟨h1, h2, ?_, ?_, ?_⟩
  · rw [kfree_ok cfg id x s hx]; simp only [Outcome.state, Function.update_same]
  · rw [kfree_ok cfg id x s hx]
    exact load64_store64 _ _ _ (hinv.head_lt hwf id hid)
  · intro i hi
    rw [kfree_ok cfg id x s hx]
    simp only [Outcome.state, Function.update_noteq hi, and_self]

/-- C10, amended, at a concrete input: `0x80031000` is on the list of core 1 and the
fresh frame `0x80030000` is freed on core 0. -/
theorem kfree_pushes_on_calling_core_witness :
    Inv xv6 (kfree xv6 0 0x80030000 (kfree xv6 1 0x80031000 emptyState).state).state
      (Function.update (Function.update (fun _ => []) 1 [0x80031000]) 0
        (0x80030000 :: Function.update (fun _ => []) 1 [0x80031000] 0)) :=
  (kfree_pushes_on_calling_core xv6 0 0x80030000 (kfree xv6 1 0x80031000 emptyState).state
    (Function.update (fun _ => []) 1 [0x80031000]) (by decide) (by decide) (by decide)
    (kfree_inv xv6 1 0x80031000 emptyState (fun _ => []) (by decide) (by decide) (by decide)
      (inv_empty xv6 emptyState (fun _ _ => rfl)) (fun _ => List.not_mem_nil _)).2
    (by
      intro i
      by_cases hi : i = 1
      · subst hi; simp
      · simp [Function.update_noteq hi])).2.1

/-! ## C11: range reclaim -/

/-- C11 as stated fails in two ways.  (a) A page that is already linked: after
`kfree(Y)` and `kfree(X)` on core 1 its list is `[X, Y]`; the only page affected by
`freerange(X, X + PGSIZE)` on core 0 is `X`, which passes validation, and the call
returns after `kfree(X)`, but the list of core 1 is then `[X]`: another core's list has
changed.  (b) Wrap-around: for `start = 2 ^ 64 - 4096` and `end = 0x80040000` no `k` has
`p_k + PGSIZE ≤ end`, yet `p + PGSIZE` wraps to 0, the loop calls `kfree(2 ^ 64 - 4096)`
and panics.  Here `X = 0x80030000`, `Y = 0x80031000`. -/
theorem freerange_range_reclaim_counterexample :
    (IsList (kfree xv6 1 0x80030000 (kfree xv6 1 0x80031000 emptyState).state).state.mem
        ((kfree xv6 1 0x80030000 (kfree xv6 1 0x80031000 emptyState).state).state.freelist 1)
        [0x80030000, 0x80031000] ∧
      kfreeOk xv6 0x80030000 ∧
      (freerange xv6 0 0x80030000 (0x80030000 + PGSIZE)
        (kfree xv6 1 0x80030000 (kfree xv6 1 0x80031000 emptyState).state).state).map
          (fun r => (r.1, r.2.panicked,
            decide (IsList r.2.state.mem (r.2.state.freelist 1) [0x80030000]))) =
        some ([0x80030000], false, true)) ∧
    (pageCount (2 ^ 64 - 4096) 0x80040000 = 0 ∧
      (freerange xv6 0 (2 ^ 64 - 4096) 0x80040000 emptyState).map
          (fun r => (r.1, r.2.panicked)) =
        some ([2 ^ 64 - 4096], true)) := by
  decide

/-- C11, amended. Let `p_k = PGROUNDUP(start) + k * PGSIZE` and let `n` be the number
of `k` with `p_k + PGSIZE ≤ end`.  In a state that satisfies the data-model invariants
with lists `L`, if `PGROUNDUP(start) + PGSIZE` does not wrap around, the pages
`p_0, ..., p_(n-1)` all pass validation and none of them is linked in a per-core list,
then `freerange(start, end)` on core `id` returns after calling `kfree` exactly on
`p_0, ..., p_(n-1)`, in increasing order (an aligned 64-bit `start` is not advanced;
nothing is freed when `n = 0`); afterwards the list of core `id` is
`p_(n-1), ..., p_1, p_0` followed by its previous contents `L id`, and the list and head
of every other core are unchanged. -/
theorem freerange_pushes_whole_pages_on_caller (cfg : Config) (id start stop : Nat)
    (s : State) (L : Nat → List Nat) (hwf : cfg.WF) (hid : id < cfg.NCPU)
    (hinv : Inv cfg s L) (hnowrap : PGROUNDUP start + PGSIZE < WORD)
    (hvalid : ∀ k, k < pageCount start stop → kfreeOk cfg (PGROUNDUP start + k * PGSIZE))
    (hfresh : ∀ k, k < pageCount start stop → ∀ i, PGROUNDUP start + k * PGSIZE ∉ L i) :
    (∀ k, PGROUNDUP start + k * PGSIZE + PGSIZE ≤ stop ↔ k < pageCount start stop) ∧
      (start % PGSIZE = 0 → start < WORD → PGROUNDUP start = start) ∧
      ∃ s1,
        freerange cfg id start stop s =
          some ((List.range (pageCount start stop)).map
            (fun k => PGROUNDUP start + k * PGSIZE), Outcome.ok s1) ∧
        Inv cfg s1 (Function.update L id
          (((List.range (pageCount start stop)).map
            (fun k => PGROUNDUP start + k * PGSIZE)).reverse ++ L id)) ∧
        ∀ i, i < cfg.NCPU → i ≠ id →
          Function.update L id
            (((List.range (pageCount start stop)).map
              (fun k => PGROUNDUP start + k * PGSIZE)).reverse ++ L id) i = L i ∧
          s1.freelist i = s.freelist i := by
  refine ⟨?_, ?_, ?_⟩
  · intro k
    unfold pageCount PGSIZE
    omega
  · intro hal hlt
    unfold PGROUNDUP
    unfold PGSIZE WORD at *
    omega
  · have hpages : ∀ y ∈ pagesFrom (PGROUNDUP start) (pageCount start stop),
        kfreeOk cfg y ∧ ∀ i, y ∉ L i := by
      intro y hy
      obtain ⟨k, hk, rfl⟩ := (mem_pagesFrom _ _ _).mp hy
      exact ⟨hvalid k hk, hfresh k hk⟩
    have hfuel : pageCount start stop < 2 ^ 52 + 1 := by
      by_cases hz : pageCount start stop = 0
      · rw [hz]; decide
      · have hv := hvalid (pageCount start stop - 1) (by omega)
        unfold Config.WF at hwf
        unfold kfreeOk at hv
        unfold PGSIZE WORD at *
        omega
    obtain ⟨s1, hrun, hinv1⟩ := freerangeLoop_push cfg id stop hwf hid (pageCount start stop)
      (2 ^ 52 + 1) (PGROUNDUP start) s L hfuel hnowrap
      (by unfold pageCount PGSIZE; omega) (by unfold pageCount PGSIZE; omega) hinv hpages
    refine ⟨s1, hrun, hinv1, ?_⟩
    intro i hi hne
    have hLi := Function.update_noteq hne
      ((pagesFrom (PGROUNDUP start) (pageCount start stop)).reverse ++ L id) L
    refine ⟨hLi, ?_⟩
    have h1 := hinv1.rep i hi
    rw [hLi] at h1
    exact IsList_head_eq_of_same_list _ _ _ _ _ h1 (hinv.rep i hi)

/-- C11, amended, at a concrete input: `0x80040000` is linked on core 2 and
`freerange(0x80030800, 0x80033000)` runs on core 0: the unaligned start is rounded up
and the two whole pages `0x80031000`, `0x80032000` are freed in this order. -/
theorem freerange_pushes_whole_pages_on_caller_witness :
    ∃ s1,
      freerange xv6 0 0x80030800 0x80033000 (kfree xv6 2 0x80040000 emptyState).state =
        some ((List.range (pageCount 0x80030800 0x80033000)).map
          (fun k => PGROUNDUP 0x80030800 + k * PGSIZE), Outcome.ok s1) ∧
      (List.range (pageCount 0x80030800 0x80033000)).map
          (fun k => PGROUNDUP 0x80030800 + k * PGSIZE) = [0x80031000, 0x80032000] := by
  obtain ⟨s1, h1, _⟩ := (freerange_pushes_whole_pages_on_caller xv6 0 0x80030800 0x80033000
    (kfree xv6 2 0x80040000 emptyState).state (Function.update (fun _ => []) 2 [0x80040000])
    (by decide) (by decide)
    (kfree_inv xv6 2 0x80040000 emptyState (fun _ => []) (by decide) (by decide) (by decide)
      (inv_empty xv6 emptyState (fun _ _ => rfl)) (fun _ => List.not_mem_nil _)).2
    (by decide) (by decide)
    (by
      intro k hk i
      have hk2 : k < 2 := hk
      by_cases hi : i = 2
      · subst hi
        simp only [Function.update_same, List.mem_singleton]
        unfold PGROUNDUP PGSIZE WORD
        omega
      · simp [Function.update_noteq hi])).2.2
  exact ⟨s1, h1, by decide⟩

/-! ## C12: initialisation -/

/-- C12 as stated fails on the list half.  In the stock configuration, `kinit` on core
0 from the zero-initialised boot state returns, and afterwards the list of core 0 is
not empty: `kinit` ends with `freerange(end, PHYSTOP)`, which pushes every whole page of
`[end, PHYSTOP)` onto the list of the calling core. -/
theorem kinit_lists_empty_counterexample :
    ∃ r, kinit xv6 0 bootLocks emptyState = some r ∧ r.outcome.state.freelist 0 ≠ 0 := by
  obtain ⟨lk, s1, hk, _, hinv⟩ := kinit_spec xv6 0 bootLocks emptyState (by decide)
    (by decide) (by decide) (fun _ _ => rfl)
  refine ⟨_, hk, ?_⟩
  intro h0
  have hnil := (hinv.head_eq_zero_iff 0 (by decide)).mp h0
  rw [Function.update_same] at hnil
  have hlen := congrArg List.length hnil
  rw [List.length_reverse, length_pagesFrom] at hlen
  revert hlen
  decide

/-- C12, amended. When `kinit` is called on a core `id < NCPU` with every per-core list
empty (the zero-initialised `kmems`) and `end ≤ PHYSTOP`, it returns; afterwards
each of the `NCPU` locks is initialised and not held, every per-core list other than
that of core `id` is empty, and the list of core `id` holds the whole pages of
`[end, PHYSTOP)`, the last page first (it is empty only when no whole page fits). -/
theorem kinit_locks_ready_and_pool_on_caller (cfg : Config) (id : Nat)
    (locks : Nat → Spinlock) (s : State) (hwf : cfg.WF) (hid : id < cfg.NCPU)
    (hle : cfg.kend ≤ cfg.PHYSTOP) (hempty : ∀ i, i < cfg.NCPU → s.freelist i = 0) :
    ∃ r s1, kinit cfg id locks s = some r ∧ r.outcome = Outcome.ok s1 ∧
      (∀ i, i < cfg.NCPU → (r.locks i).inited = true ∧ (r.locks i).locked = false) ∧
      (∀ i, i < cfg.NCPU → i ≠ id → s1.freelist i = 0) ∧
      IsList s1.mem (s1.freelist id)
        ((List.range ((cfg.PHYSTOP - PGROUNDUP cfg.kend) / PGSIZE)).map
          (fun k => PGROUNDUP cfg.kend + k * PGSIZE)).reverse ∧
      r.freed = (List.range ((cfg.PHYSTOP - PGROUNDUP cfg.kend) / PGSIZE)).map
        (fun k => PGROUNDUP cfg.kend + k * PGSIZE) := by
  obtain ⟨lk, s1, hk, hlocks, hinv⟩ := kinit_spec cfg id locks s hwf hid hle hempty
  refine ⟨_, s1, hk, rfl, hlocks, ?_, ?_, rfl⟩
  · intro i hi hne
    have := hinv.rep i hi
    rw [Function.update_noteq hne] at this
    exact this
  · have := hinv.rep id hid
    rw [Function.update_same] at this
    exact this

/-- C12, amended, at a concrete input: `kinit` on core 0 of the stock configuration
from the boot state. -/
theorem kinit_locks_ready_and_pool_on_caller_witness :
    ∃ r s1, kinit xv6 0 bootLocks emptyState = some r ∧ r.outcome = Outcome.ok s1 ∧
      (∀ i, i < xv6.NCPU → (r.locks i).inited = true ∧ (r.locks i).locked = false) ∧
      (∀ i, i < xv6.NCPU → i ≠ 0 → s1.freelist i = 0) := by
  obtain ⟨r, s1, h1, h2, h3, h4, _⟩ := kinit_locks_ready_and_pool_on_caller xv6 0 bootLocks
    emptyState (by decide) (by decide) (by decide) (fun _ _ => rfl)
  exact ⟨r, s1, h1, h2, h3, h4⟩

/-! ## C13: cross-core conservation -/

/-- C13. Every `kalloc`/`kfree` call is one atomic step taken by an arbitrary core
below `NCPU`.  For every sequence of such steps that starts in a state satisfying the
data-model invariants (lists `L0`, no frame outstanding) and applies `kfree` only to
frames that are outstanding at that point (returned by `kalloc()` and not yet freed),
no step panics, and in the state reached the per-core lists `L1` are well formed, no
address occurs twice in one list or in two different lists, and the sum of the lengths
of all per-core lists plus the number of outstanding frames equals the sum of the
lengths at the start. -/
theorem cross_core_conservation (cfg : Config) (calls : List Call) (s0 : State)
    (L0 : Nat → List Nat) (log : List Event) (hwf : cfg.WF) (hinv : Inv cfg s0 L0)
    (hcore : ∀ c ∈ calls, c.core < cfg.NCPU)
    (hexec : (exec cfg calls s0).map Prod.fst = some log)
    (hlegal : FreesOutstanding [] log) :
    ∃ s1 L1, exec cfg calls s0 = some (log, s1) ∧ Inv cfg s1 L1 ∧
      (∀ i, (L1 i).Nodup) ∧ (∀ i j x, x ∈ L1 i → x ∈ L1 j → i = j) ∧
      (∑ i in Finset.range cfg.NCPU, (L1 i).length) + (outstanding [] log).length =
        ∑ i in Finset.range cfg.NCPU, (L0 i).length := by
  obtain ⟨s1, hex⟩ : ∃ s1, exec cfg calls s0 = some (log, s1) := by
    cases he : exec cfg calls s0 with
    | none => rw [he] at hexec; cases hexec
    | some r =>
      rw [he] at hexec
      simp only [Option.map_some', Option.some.injEq] at hexec
      exact ⟨r.2, by rw [← hexec]⟩
  have hrun := exec_EvRun cfg calls s0 s1 log hcore hex
  obtain ⟨L1, hinv1, hsum⟩ := conservation_run cfg hwf log s0 s1 L0 [] hinv List.nodup_nil
    (fun x hx => absurd hx (List.not_mem_nil _)) hrun hlegal
  exact ⟨s1, L1, hex, hinv1, hinv1.nodup, hinv1.disj, by simpa using hsum⟩

/-- C13 at a concrete input: the pool holds `0x80030000` and `0x80031000` on core 0;
cores 0 and 3 take a frame each, core 5 frees the frame core 0 got, core 3 frees its
own, and core 1 takes one (from core 3, the lowest non-empty peer): one frame is outstanding at the end and one is linked. -/
theorem cross_core_conservation_witness :
    ∃ s1 L1,
      exec xv6 [Call.kalloc 0, Call.kalloc 3, Call.kfree 5 0x80031000,
          Call.kfree 3 0x80030000, Call.kalloc 1]
        (kfree xv6 0 0x80031000 (kfree xv6 0 0x80030000 emptyState).state).state =
        some ([Event.alloc 0x80031000, Event.alloc 0x80030000, Event.freed 0x80031000,
          Event.freed 0x80030000, Event.alloc 0x80030000], s1) ∧
      Inv xv6 s1 L1 ∧
      (∑ i in Finset.range xv6.NCPU, (L1 i).length) + 1 = 2 := by
  obtain ⟨s1, L1, h1, h2, _, _, h5⟩ := cross_core_conservation xv6
    [Call.kalloc 0, Call.kalloc 3, Call.kfree 5 0x80031000, Call.kfree 3 0x80030000,
      Call.kalloc 1]
    (kfree xv6 0 0x80031000 (kfree xv6 0 0x80030000 emptyState).state).state _
    [Event.alloc 0x80031000, Event.alloc 0x80030000, Event.freed 0x80031000,
      Event.freed 0x80030000, Event.alloc 0x80030000]
    (by decide)
    (kfree_inv xv6 0 0x80031000 (kfree xv6 0 0x80030000 emptyState).state _ (by decide)
      (by decide) (by decide)
      (kfree_inv xv6 0 0x80030000 emptyState (fun _ => []) (by decide) (by decide)
        (by decide) (inv_empty xv6 emptyState (fun _ _ => rfl))
        (fun _ => List.not_mem_nil _)).2
      (by
        intro i
        by_cases hi : i = 0
        · subst hi; simp
        · simp [Function.update_noteq hi])).2
    (by decide) (by decide) (by decide)
  refine ⟨s1, L1, h1, h2, ?_⟩
  rw [show (outstanding [] [Event.alloc 0x80031000, Event.alloc 0x80030000,
    Event.freed 0x80031000, Event.freed 0x80030000, Event.alloc 0x80030000]).length = 1
    from by decide] at h5
  rw [h5]
  simp [xv6, Finset.sum_range_succ, Function.update]

/-! ## C14: the deadlock hazard -/

/-- C14. `kalloc` acquires a peer's lock while it still holds the lock of the calling
core.  With at least two cores, whenever the lists of cores 0 and 1 are empty and no
lock is held, the interleaving "core 0 steps, core 1 steps, core 0 steps" of two
`kalloc()` calls reaches a state in which core 0 holds its own lock and is about to
acquire the lock of core 1, core 1 holds its own lock and is about to acquire the lock
of core 0, and no core has a step to take: each of the two waits for a lock held by the
other, so no schedule whatsoever continues from that state. -/
theorem kalloc_circular_wait (cfg : Config) (st : State) (locks : Nat → Spinlock)
    (hn : 2 ≤ cfg.NCPU) (h0 : st.freelist 0 = 0) (h1 : st.freelist 1 = 0)
    (hfree : ∀ i, (locks i).locked = false) :
    ∃ D, runSched cfg [0, 1, 0] (twoCallers st locks) = some D ∧
      D.pc 0 = Pc.acqPeer 1 ∧ (D.locks 0).locked = true ∧
      D.pc 1 = Pc.acqPeer 0 ∧ (D.locks 1).locked = true ∧
      acquire (D.locks 1) = none ∧ acquire (D.locks 0) = none ∧
      (∀ c, coreStep cfg c D = none) ∧
      (∀ c cs, runSched cfg (c :: cs) D = none) := by
  have ha0 : acquire (locks 0) = some { locks 0 with locked := true } := by
    simp [acquire, hfree 0]
  have ha1 : acquire (locks 1) = some { locks 1 with locked := true } := by
    simp [acquire, hfree 1]
  have hn0 : ¬ cfg.NCPU ≤ 0 := by omega
  have hn1 : ¬ cfg.NCPU ≤ 1 := by omega
  let D : Sys :=
    { st := st,
      locks := Function.update (Function.update locks 0 { locks 0 with locked := true }) 1
        { locks 1 with locked := true },
      pc := Function.update (Function.update
        (Function.update (fun c => if c < 2 then Pc.acqOwn else Pc.idle) 0 (Pc.acqPeer 0))
          1 (Pc.acqPeer 0)) 0 (Pc.acqPeer 1) }
  have hrun : runSched cfg [0, 1, 0] (twoCallers st locks) = some D := by
    simp [runSched, coreStep, twoCallers, ha0, ha1, h0, h1, hn0, D]
  have hstuck : ∀ c, coreStep cfg c D = none := by
    intro c
    by_cases hc0 : c = 0
    · subst hc0
      simp [coreStep, D, hn1, acquire]
    · by_cases hc1 : c = 1
      · subst hc1
        simp [coreStep, D, hn0, acquire]
      · have hc2 : ¬ c < 2 := by omega
        simp [coreStep, D, hc0, hc1, hc2]
  refine ⟨D, hrun, ?_, ?_, ?_, ?_, ?_, ?_, hstuck, ?_⟩
  · simp [D]
  · simp [D]
  · simp [D]
  · simp [D]
  · simp [D, acquire]
  · simp [D, acquire]
  · intro c cs
    simp [runSched, hstuck c]

/-- C14 at a concrete input: eight cores, zeroed memory, all lists empty, the locks
as `kinit` leaves them. -/
theorem kalloc_circular_wait_witness :
    ∃ D, runSched xv6 [0, 1, 0] (twoCallers emptyState (initlocks 8 bootLocks)) = some D ∧
      D.pc 0 = Pc.acqPeer 1 ∧ D.pc 1 = Pc.acqPeer 0 ∧ (∀ c, coreStep xv6 c D = none) := by
  obtain ⟨D, h1, h2, _, h4, _, _, _, h8, _⟩ := kalloc_circular_wait xv6 emptyState
    (initlocks 8 bootLocks) (by decide) rfl rfl
    (by
      intro i
      by_cases hi : i < 8
      · rw [(initlocks_spec 8 bootLocks i).1 hi]
      · rw [(initlocks_spec 8 bootLocks i).2 (by omega)]; rfl)
  exact ⟨D, h1, h2, h4, h8⟩

/-! ## C15: local preference and LIFO -/

/-- C15 as stated fails in a state where the head of the caller's list is also linked
on a peer's list.  After `kfree(X)` on core 0 and `kfree(X)` on core 1
(`X = 0x80030000` passes validation both times) the lists of cores 0 and 1 are both
`[X]`.  `kalloc()` on core 0 returns the head `X` of its own list and examines no peer,
but it fills `X` with the allocation sentinel: the list of peer core 1 is now
`[X, 0x0505050505050505]` and no longer `[X]`, so a peer list has changed. -/
theorem kalloc_local_peer_lists_unchanged_counterexample :
    kfreeOk xv6 0x80030000 ∧
      IsList (kfree xv6 1 0x80030000 (kfree xv6 0 0x80030000 emptyState).state).state.mem
        ((kfree xv6 1 0x80030000 (kfree xv6 0 0x80030000 emptyState).state).state.freelist 0)
        [0x80030000] ∧
      IsList (kfree xv6 1 0x80030000 (kfree xv6 0 0x80030000 emptyState).state).state.mem
        ((kfree xv6 1 0x80030000 (kfree xv6 0 0x80030000 emptyState).state).state.freelist 1)
        [0x80030000] ∧
      (kalloc xv6 0
        (kfree xv6 1 0x80030000 (kfree xv6 0 0x80030000 emptyState).state).state).ret
        = 0x80030000 ∧
      (kalloc xv6 0
        (kfree xv6 1 0x80030000 (kfree xv6 0 0x80030000 emptyState).state).state).probed
        = [] ∧
      IsList
        (kalloc xv6 0
          (kfree xv6 1 0x80030000 (kfree xv6 0 0x80030000 emptyState).state).state).state.mem
        ((kalloc xv6 0
          (kfree xv6 1 0x80030000
            (kfree xv6 0 0x80030000 emptyState).state).state).state.freelist 1)
        [0x80030000, 0x0505050505050505] ∧
      ¬ IsList
        (kalloc xv6 0
          (kfree xv6 1 0x80030000 (kfree xv6 0 0x80030000 emptyState).state).state).state.mem
        ((kalloc xv6 0
          (kfree xv6 1 0x80030000
            (kfree xv6 0 0x80030000 emptyState).state).state).state.freelist 1)
        [0x80030000] := by
  decide

/-- C15, amended. In every state that satisfies the data-model invariants with lists
`L` (every linked frame passes validation, no frame is linked twice) and in which the
list of the calling core `id` is non-empty, `kalloc()` on core `id` returns the head of
list `id`, examines no peer list, makes the link stored in the returned frame the new
head of list `id` and leaves every other head as it was, also when peers hold free
frames.  List `id` is `r :: t` for the returned `r`, and afterwards the lists are `L`
with list `id` replaced by its former tail `t`: no peer list has changed, and the
invariants hold again.  The head is the frame most recently pushed: after `kfree(x)` on
core `id` of a frame `x` that passes validation and is not linked, `kalloc()` on core
`id` returns `x`. -/
theorem kalloc_prefers_local_head (cfg : Config) (id : Nat) (s : State)
    (L : Nat → List Nat) (hwf : cfg.WF) (hid : id < cfg.NCPU) (hinv : Inv cfg s L)
    (hne : L id ≠ []) :
    ∃ t, L id = (kalloc cfg id s).ret :: t ∧
      (kalloc cfg id s).ret = s.freelist id ∧
      (kalloc cfg id s).ret ≠ 0 ∧
      (kalloc cfg id s).probed = [] ∧
      (kalloc cfg id s).state.freelist id = load64 s.mem (s.freelist id) ∧
      (∀ i, i ≠ id → (kalloc cfg id s).state.freelist i = s.freelist i) ∧
      Inv cfg (kalloc cfg id s).state (Function.update L id t) ∧
      (∀ i, i ≠ id → Function.update L id t i = L i) ∧
      (∀ x, kfreeOk cfg x → (∀ i, x ∉ L i) →
        (kalloc cfg id (kfree cfg id x s).state).ret = x ∧
        (kalloc cfg id (kfree cfg id x s).state).probed = []) := by
  have hhne : s.freelist id ≠ 0 := fun h => hne ((hinv.head_eq_zero_iff id hid).mp h)
  have hk := kalloc_local cfg id s hhne
  have hrep := hinv.rep id hid
  cases hl : L id with
  | nil => exact absurd hl hne
  | cons x t =>
    rw [hl] at hrep
    have hx : s.freelist id = x := hrep.1
    refine ⟨t, by rw [hk, hx], by rw [hk], by rw [hk]; exact hhne, by rw [hk], ?_, ?_, ?_,
      fun i hi => Function.update_noteq hi _ _, ?_⟩
    · rw [hk]; simp only [Function.update_same]
    · intro i hi
      rw [hk]; simp only [Function.update_noteq hi]
    · rw [hk, hx]
      exact pop_inv cfg id x t s L hinv hid hl
    · intro y hy _
      have hhead : (kfree cfg id y s).state.freelist id = y := by
        rw [kfree_ok cfg id y s hy]; simp only [Outcome.state, Function.update_same]
      have hy0 : (kfree cfg id y s).state.freelist id ≠ 0 := by
        rw [hhead]; unfold Config.WF at hwf; unfold kfreeOk at hy; omega
      rw [kalloc_local cfg id _ hy0]
      exact ⟨hhead, rfl⟩

/-- C15, amended, at a concrete input: core 0 holds `0x80030000` and core 1 holds
`0x80031000`; `kalloc()` on core 1 takes the head of its own list and probes no peer. -/
theorem kalloc_prefers_local_head_witness :
    (kalloc xv6 1 (kfree xv6 1 0x80031000 (kfree xv6 0 0x80030000 emptyState).state).state).ret
        = (kfree xv6 1 0x80031000 (kfree xv6 0 0x80030000 emptyState).state).state.freelist 1 ∧
      (kalloc xv6 1
        (kfree xv6 1 0x80031000 (kfree xv6 0 0x80030000 emptyState).state).state).probed = [] := by
  obtain ⟨_, _, h2, _, h4, _⟩ :=
    kalloc_prefers_local_head xv6 1
      (kfree xv6 1 0x80031000 (kfree xv6 0 0x80030000 emptyState).state).state
      (Function.update (Function.update (fun _ => ([] : List Nat)) 0 [0x80030000]) 1
        (0x80031000 :: Function.update (fun _ => ([] : List Nat)) 0 [0x80030000] 1))
      (by decide) (by decide)
      (kfree_inv xv6 1 0x80031000 (kfree xv6 0 0x80030000 emptyState).state
        (Function.update (fun _ => ([] : List Nat)) 0 [0x80030000]) (by decide) (by decide)
        (by decide)
        (kfree_inv xv6 0 0x80030000 emptyState (fun _ => []) (by decide) (by decide)
          (by decide) (inv_empty xv6 emptyState (fun _ _ => rfl))
          (fun _ => List.not_mem_nil _)).2
        (by
          intro i
          by_cases hi : i = 0
          · subst hi; simp
          · simp [Function.update_noteq hi])).2
      (by simp)
  exact ⟨h2, h4⟩

/-! ## C16: the intrusive link -/

/-- C17. For every sequence of `kfree`/`freerange`/`kalloc` calls (by cores below
`NCPU`) that starts with all lists empty, does not panic and never frees a frame that
is currently free, the state reached has well-formed per-core lists `L` in which every
linked address is a multiple of `PGSIZE` with `end ≤ address < PHYSTOP` (and no frame
is linked twice); consequently every non-null result of a `kalloc()` of the sequence is
page-aligned and lies in `[end, PHYSTOP)`. -/
theorem linked_and_allocated_frames_are_managed (cfg : Config) (calls : List Call)
    (s0 : State) (log : List Event) (hwf : cfg.WF)
    (hempty : ∀ i, i < cfg.NCPU → s0.freelist i = 0)
    (hcore : ∀ c ∈ calls, c.core < cfg.NCPU)
    (hexec : (exec cfg calls s0).map Prod.fst = some log)
    (hndf : NoDoubleFree log) :
    (∃ s1 L, exec cfg calls s0 = some (log, s1) ∧ Inv cfg s1 L ∧
      ∀ i x, x ∈ L i → x % PGSIZE = 0 ∧ cfg.kend ≤ x ∧ x < cfg.PHYSTOP) ∧
    (∀ r, Event.alloc r ∈ log → r ≠ 0 → r % PGSIZE = 0 ∧ cfg.kend ≤ r ∧ r < cfg.PHYSTOP) := by
  obtain ⟨s1, hex⟩ : ∃ s1, exec cfg calls s0 = some (log, s1) := by
    cases he : exec cfg calls s0 with
    | none => rw [he] at hexec; cases hexec
    | some r =>
      rw [he] at hexec
      simp only [Option.map_some', Option.some.injEq] at hexec
      exact ⟨r.2, by rw [← hexec]⟩
  have hrun := exec_EvRun cfg calls s0 s1 log hcore hex
  constructor
  · obtain ⟨L, hinv, _⟩ := run_inv cfg hwf s0 hempty log s1 hrun hndf
    exact ⟨s1, L, hex, hinv, fun i x hx => hinv.valid i x hx⟩
  · intro r hr hr0
    obtain ⟨p, q, hl⟩ := List.append_of_mem hr
    rw [hl] at hrun hndf
    obtain ⟨sp, hrunp, hrest⟩ := (EvRun_append cfg _ _ s0 s1).mp hrun
    obtain ⟨L, hinv, _⟩ := run_inv cfg hwf s0 hempty _ sp hrunp (NoDoubleFree_of_append _ _ hndf)
    obtain ⟨sq, ⟨id, hid, hret, _⟩, _⟩ := hrest
    rcases kalloc_inv cfg id sp L hid hinv with ⟨_, hk⟩ | ⟨j, r1, t, _, hlj, _, _, hret1, _, _⟩
    · rw [hk] at hret
      exact absurd hret.symm hr0
    · have hxj : r ∈ L j := by
        rw [hlj, ← hret, hret1]; exact List.mem_cons_self _ _
      exact hinv.valid j r hxj

/-- C17 at a concrete input: `freerange` seeds two pages on core 0, cores 3 and 0 take
one each, core 3 gives its page back; the frame `0x80031000` that core 3 was handed is
page-aligned and inside `[end, PHYSTOP)`. -/
theorem linked_and_allocated_frames_are_managed_witness :
    0x80031000 % PGSIZE = 0 ∧ xv6.kend ≤ 0x80031000 ∧ 0x80031000 < xv6.PHYSTOP :=
  (linked_and_allocated_frames_are_managed xv6
    [Call.freerange 0 0x80030000 0x80032000, Call.kalloc 3, Call.kalloc 0,
      Call.kfree 3 0x80031000]
    emptyState
    [Event.freed 0x80030000, Event.freed 0x80031000, Event.alloc 0x80031000,
      Event.alloc 0x80030000, Event.freed 0x80031000]
    (by decide) (fun _ _ => rfl) (by decide) (by decide)
    (noDoubleFree_of_check _ (by decide))).2 0x80031000 (by decide) (by decide)

/-! ## C18: boot seeding never faults -/

/-- C18. For every `start ≥ end` and every `limit ≤ PHYSTOP`, with no 64-bit
wrap-around in `start + PGSIZE - 1` or in `p + PGSIZE` (for the first `p` and up to
`limit`), `freerange(start, limit)` returns without panic, in any state and on any core,
and every address it passes to `kfree` satisfies the validation of `kfree` (aligned,
`≥ end`, `< PHYSTOP`).  In particular, when `start = end` and `limit = PHYSTOP`, `kinit`
on a core below `NCPU` returns with the outcome of `freerange` not a panic. -/
theorem freerange_in_managed_range_never_panics (cfg : Config) (id start limit : Nat)
    (s : State) (hstart : cfg.kend ≤ start) (hlimit : limit ≤ cfg.PHYSTOP)
    (hw1 : start + PGSIZE - 1 < WORD) (hw2 : PGROUNDUP start + PGSIZE < WORD)
    (hw3 : limit + PGSIZE < WORD) :
    (∃ ps s1, freerange cfg id start limit s = some (ps, Outcome.ok s1) ∧
        ∀ y ∈ ps, kfreeOk cfg y) ∧
      (start = cfg.kend → limit = cfg.PHYSTOP → id < cfg.NCPU →
        ∀ locks, ∃ r s1, kinit cfg id locks s = some r ∧ r.outcome = Outcome.ok s1 ∧
          ∀ y ∈ r.freed, kfreeOk cfg y) := by
  have hw : start + PGSIZE ≤ WORD := by unfold PGSIZE at *; omega
  obtain ⟨h1, h2, h3⟩ := PGROUNDUP_spec start hw
  have hmain : ∃ s1, freerange cfg id start limit s =
      some (pagesFrom (PGROUNDUP start) ((limit - PGROUNDUP start) / PGSIZE), Outcome.ok s1) ∧
      ∀ y ∈ pagesFrom (PGROUNDUP start) ((limit - PGROUNDUP start) / PGSIZE), kfreeOk cfg y := by
    unfold freerange
    apply freerangeLoop_valid cfg id limit hlimit hw3 _ _ _ s _ h1 (by omega) hw2
    · unfold PGSIZE at *; omega
    · unfold PGSIZE at *; omega
    · unfold PGSIZE WORD at *; omega
  obtain ⟨s1, hrun, hval⟩ := hmain
  refine ⟨⟨_, s1, hrun, hval⟩, ?_⟩
  intro hs hl hid locks
  subst hs; subst hl
  have hunl : (initlocks cfg.NCPU locks id).locked = false := by
    rw [(initlocks_spec cfg.NCPU locks id).1 hid]
  obtain ⟨lk, hlk, _⟩ := kfreeLocks_unlocked id
    (pagesFrom (PGROUNDUP cfg.kend) ((cfg.PHYSTOP - PGROUNDUP cfg.kend) / PGSIZE)).length
    (initlocks cfg.NCPU locks) hunl
  refine ⟨KinitResult.mk lk
    (pagesFrom (PGROUNDUP cfg.kend) ((cfg.PHYSTOP - PGROUNDUP cfg.kend) / PGSIZE))
    (Outcome.ok s1), s1, ?_, rfl, hval⟩
  unfold kinit
  rw [hrun]
  simp only [Option.some_bind, hlk, Option.map_some']

/-- C18 at a concrete input: `kinit` on core 0 of the stock configuration, from the
zero-initialised boot state, returns with an outcome that is not a panic. -/
theorem freerange_in_managed_range_never_panics_witness :
    ∃ r s1, kinit xv6 0 bootLocks emptyState = some r ∧ r.outcome = Outcome.ok s1 ∧
      ∀ y ∈ r.freed, kfreeOk xv6 y :=
  (freerange_in_managed_range_never_panics xv6 0 xv6.kend xv6.PHYSTOP emptyState
    (by decide) (by decide) (by decide) (by decide) (by decide)).2 rfl rfl (by decide)
    bootLocks

end Kalloc
